import Mathlib

/-!
Shallow embedding of `src/ament_copyright/ament_copyright/parser.py`.

Python strings are modelled as `List Char` (`Str`).  Python string slices
`s[a:b]` become `(s.take b).drop a` (slices clamp, exactly like
`List.take`/`List.drop`).  `str.find(sub, i)` becomes `pyFind` (with `none`
for `-1`).  A Python `IndexError` (from `content[index]` with an
out-of-range index) is modelled by `Option`: `none` means the exception was
raised.  Loops of the source are modelled with an explicit fuel argument so
that every definition is a computable structural recursion; each wrapper
passes fuel that is provably larger than the number of iterations the
Python loop can perform, so the fuel-exhausted branch is never reached.

The registries (`get_copyright_names`, `get_licenses`) and the constant
`UNKNOWN_IDENTIFIER` are imported by the source from the `ament_copyright`
package `__init__`, which is not part of the sources; following the spec
they are modelled as read-only parameters (insertion-ordered association
lists, matching Python dict iteration order).
-/

abbrev Str := List Char

/-- Character class of Python `\s` (the ASCII range; the repository's
inputs are ASCII license headers). -/
def isPySpace (c : Char) : Bool :=
  decide (c = ' ' ∨ c = '\t' ∨ c = '\n' ∨ c = '\r' ∨ c = '\x0b' ∨ c = '\x0c')

/-- Character class of Python `\d` (the ASCII digits). -/
def isPyDigit (c : Char) : Bool :=
  decide ('0' ≤ c ∧ c ≤ '9')

/-- Line-boundary characters of Python `str.splitlines`. -/
def isPyLineBreak (c : Char) : Bool :=
  decide (c ∈ ['\n', '\r', '\x0b', '\x0c', '\x1c', '\x1d', '\x1e', '\x85', '\u2028', '\u2029'])

/-- Occurrence test `content[i : i + pat.length] == pat` (Python slices
clamp, so an out-of-range `i` simply fails for a nonempty `pat`). -/
def matchP (s pat : Str) (i : Nat) : Prop := (s.drop i).take pat.length = pat

instance (s pat : Str) (i : Nat) : Decidable (matchP s pat i) :=
  inferInstanceAs (Decidable (_ = _))

/-- Fuel-driven scan underlying `pyFind`. -/
def pyFindAux (s pat : Str) : Nat → Nat → Option Nat
  | 0, _ => none
  | fuel + 1, i =>
    if i ≤ s.length then
      if matchP s pat i then some i else pyFindAux s pat fuel (i + 1)
    else none

/-- Python `content.find(pat, i)`: the least `j ≥ i` with an occurrence of
`pat` at `j`, `none` standing for Python's `-1`. -/
def pyFind (s pat : Str) (i : Nat) : Option Nat :=
  pyFindAux s pat (s.length + 2) i

/-- Python `pat in s` (substring containment). -/
def pyContains (s pat : Str) : Bool := (pyFind s pat 0).isSome

/-- Python `min` over a nonempty collection of indices (`none` for empty). -/
def listMin : List Nat → Option Nat
  | [] => none
  | x :: xs => some (xs.foldl Nat.min x)

/-- Translation of `get_index_of_next_line` (parser.py lines 194-210). -/
def get_index_of_next_line (content : Str) (index : Nat) : Nat :=
  let index_n := pyFind content ['\n'] index
  let index_r := pyFind content ['\r'] index
  let index_rn := pyFind content ['\r', '\n'] index
  let indices := index_n.toList ++ index_r.toList ++ index_rn.toList
  match listMin indices with
  | none => content.length
  | some m => if index_rn = some m then m + 2 else m + 1

/-- Translation of `is_comment_line` (parser.py lines 213-214).  Python
`content[index]` raises `IndexError` when `index` is out of range, hence
the `Option`; the slice `content[index:index + 1]` cannot raise.  Note the
source compares the one-character slice `content[index:index + 1]` with
the two-character string `'//'`. -/
def is_comment_line (content : Str) (index : Nat) : Option Bool :=
  if h : index < content.length then
    some (decide (content[index] = '#') || decide ((content.drop index).take 1 = ['/', '/']))
  else none

/-- Translation of `is_shebang_line` (parser.py lines 223-224). -/
def is_shebang_line (content : Str) (index : Nat) : Bool :=
  decide ((content.drop index).take 2 = ['#', '!'])

/-- Translation of `is_coding_line` (parser.py lines 217-220). -/
def is_coding_line (content : Str) (index : Nat) : Bool :=
  let end_index := get_index_of_next_line content index
  let line := (content.take end_index).drop index
  pyContains line "coding=".toList || pyContains line "coding:".toList

/-- Fuel-driven loop of `scan_past_coding_and_shebang_lines`.  The Python
`while` condition evaluates `is_comment_line` first; a raised `IndexError`
propagates (`none`). -/
def scanPastCodingAndShebangAux (content : Str) : Nat → Nat → Option Nat
  | 0, _ => none
  | fuel + 1, index =>
    match is_comment_line content index with
    | none => none
    | some c =>
      if c && (is_coding_line content index || is_shebang_line content index) then
        scanPastCodingAndShebangAux content fuel (get_index_of_next_line content index)
      else
        some index

/-- Translation of `scan_past_coding_and_shebang_lines` (parser.py lines
183-191).  Each loop iteration strictly increases `index`, which stays
bounded by the content length, so `length + 2` fuel is never exhausted. -/
def scan_past_coding_and_shebang_lines (content : Str) : Option Nat :=
  scanPastCodingAndShebangAux content (content.length + 2) 0

/-- Translation of `is_empty_line` (parser.py lines 257-258). -/
def is_empty_line (content : Str) (index : Nat) : Bool :=
  decide (get_index_of_next_line content index = index + 1)

/-- Fuel-driven loop of `scan_past_empty_lines`. -/
def scanPastEmptyLinesAux (content : Str) : Nat → Nat → Nat
  | 0, index => index
  | fuel + 1, index =>
    if is_empty_line content index then
      scanPastEmptyLinesAux content fuel (get_index_of_next_line content index)
    else index

/-- Translation of `scan_past_empty_lines` (parser.py lines 251-254). -/
def scan_past_empty_lines (content : Str) (index : Nat) : Nat :=
  scanPastEmptyLinesAux content (content.length + 2) index

/-- First line of a string together with the rest after its line
terminator (`none` when the string ends without a terminator); the
`\r\n` pair counts as a single terminator.  Helper for `pySplitlines`. -/
def splitFirstLine : Str → Str × Option Str
  | [] => ([], none)
  | c :: rest =>
    if c = '\r' then
      match rest with
      | d :: rest2 => if d = '\n' then ([], some rest2) else ([], some rest)
      | [] => ([], some rest)
    else if isPyLineBreak c then ([], some rest)
    else
      let p := splitFirstLine rest
      (c :: p.1, p.2)

/-- Fuel-driven recursion of `pySplitlines`. -/
def pySplitlinesAux : Nat → Str → List Str
  | 0, _ => []
  | _, [] => []
  | fuel + 1, s =>
    let p := splitFirstLine s
    match p.2 with
    | none => [p.1]
    | some r => p.1 :: pySplitlinesAux fuel r

/-- Python `str.splitlines()`: split at `\n`, `\r`, `\r\n` and the other
line-boundary characters, dropping the terminators. -/
def pySplitlines (s : Str) : List Str := pySplitlinesAux (s.length + 1) s

/-- Zero-width `^` of a `re.MULTILINE` pattern: start of string or a
position immediately after a `\n`. -/
def caretAt (content : Str) (i : Nat) : Bool :=
  decide (i = 0) || decide ((content.drop (i - 1)).take 1 = ['\n'])

/-- Zero-width `$` of a `re.MULTILINE` pattern: end of string or a
position immediately before a `\n`. -/
def dollarAt (content : Str) (i : Nat) : Bool :=
  decide (i = content.length) || decide ((content.drop i).take 1 = ['\n'])

/-- Leftmost match of the compiled pattern `^(#|//)` (re.MULTILINE) at or
after `i`, as in `regex.search(content, index)` inside
`get_comment_block`: the match position and the token matched by the
group, trying the alternatives in order. -/
def findCommentStartAux (content : Str) : Nat → Nat → Option (Nat × Str)
  | 0, _ => none
  | fuel + 1, i =>
    if i ≤ content.length then
      if caretAt content i then
        if matchP content ['#'] i then some (i, ['#'])
        else if matchP content ['/', '/'] i then some (i, ['/', '/'])
        else findCommentStartAux content fuel (i + 1)
      else findCommentStartAux content fuel (i + 1)
    else none

/-- Fuel-driven `while True` loop of `get_comment_block`: advance to the
next line and stop at the first line that does not begin with the comment
token, returning that line's start index. -/
def blockEndAux (content : Str) (comment_token : Str) : Nat → Nat → Nat
  | 0, e => e
  | fuel + 1, e =>
    let e2 := get_index_of_next_line content e
    if matchP content comment_token e2 then blockEndAux content comment_token fuel e2
    else e2

/-- Translation of `get_comment_block` (parser.py lines 227-248).  Returns
the de-commented block and the offset after the token on the first line,
or `none` when the regex finds no comment-starting line (the Python
`(None, None)` pair). -/
def get_comment_block (content : Str) (index : Nat) : Option (Str × Nat) :=
  match findCommentStartAux content (content.length + 2) index with
  | none => none
  | some (start_index, comment_token) =>
    let end_index := blockEndAux content comment_token (content.length + 2) start_index
    let block := (content.take end_index).drop start_index
    let lines := pySplitlines block
    let lines2 := lines.map (fun line => line.drop (comment_token.length + 1))
    some (List.intercalate ['\n'] lines2, start_index + comment_token.length + 1)

/-!
The copyright pattern of `_search_copyright_information` (parser.py lines
168-180):

  `^[^\n\r]?\s*(Copyright)\s+((?:\d{4}|\d{4}-\d{4})(?:,\s*(?:\d{4}|\d{4}-\d{4}))*)\s+([^\n\r]+)$`

compiled with `re.DOTALL | re.MULTILINE` (the pattern contains no `.`, so
`DOTALL` is inert).  The pattern is embedded by a backtracking matcher:
each piece maps a start position to the list of possible end positions in
Python's backtracking priority order (greedy quantifiers try the longest
continuation first, alternatives are tried left to right), and sequencing
is `List.flatMap`, so the head of the final list is exactly the match the
Python engine commits to. -/

/-- Piece `[^\n\r]?` (greedy: consuming first). -/
def optNonNl (s : Str) (i : Nat) : List Nat :=
  match s.drop i with
  | [] => [i]
  | c :: _ => if c ≠ '\n' ∧ c ≠ '\r' then [i + 1, i] else [i]

/-- Fuel-driven greedy `\s*`. -/
def wsStarAux (s : Str) : Nat → Nat → List Nat
  | 0, i => [i]
  | fuel + 1, i =>
    match s.drop i with
    | [] => [i]
    | c :: _ => if isPySpace c then wsStarAux s fuel (i + 1) ++ [i] else [i]

/-- Piece `\s*` (greedy: longest first). -/
def wsStar (s : Str) (i : Nat) : List Nat := wsStarAux s (s.length + 1) i

/-- Piece `\s+`. -/
def wsPlus (s : Str) (i : Nat) : List Nat :=
  match s.drop i with
  | [] => []
  | c :: _ => if isPySpace c then wsStar s (i + 1) else []

/-- Fuel-driven greedy `[^\n\r]*`. -/
def nonNlStarAux (s : Str) : Nat → Nat → List Nat
  | 0, i => [i]
  | fuel + 1, i =>
    match s.drop i with
    | [] => [i]
    | c :: _ =>
      if c ≠ '\n' ∧ c ≠ '\r' then nonNlStarAux s fuel (i + 1) ++ [i] else [i]

/-- Piece `[^\n\r]*` (greedy: longest first). -/
def nonNlStar (s : Str) (i : Nat) : List Nat := nonNlStarAux s (s.length + 1) i

/-- Piece `[^\n\r]+`. -/
def nonNlPlus (s : Str) (i : Nat) : List Nat :=
  match s.drop i with
  | [] => []
  | c :: _ => if c ≠ '\n' ∧ c ≠ '\r' then nonNlStar s (i + 1) else []

/-- Literal piece: the whole `pat` at position `i`. -/
def litAt (s pat : Str) (i : Nat) : List Nat :=
  if matchP s pat i then [i + pat.length] else []

/-- Piece `\d{4}`. -/
def digit4 (s : Str) (i : Nat) : List Nat :=
  let t := (s.drop i).take 4
  if t.length = 4 ∧ t.all isPyDigit then [i + 4] else []

/-- Piece `\d{4}-\d{4}`. -/
def yearRange (s : Str) (i : Nat) : List Nat :=
  (digit4 s i).flatMap fun j => (litAt s ['-'] j).flatMap fun k => digit4 s k

/-- Piece `(?:\d{4}|\d{4}-\d{4})`, alternatives in source order. -/
def yearOrYearRange (s : Str) (i : Nat) : List Nat :=
  digit4 s i ++ yearRange s i

/-- Piece `,\s*(?:\d{4}|\d{4}-\d{4})`, the body of the starred group. -/
def commaItem (s : Str) (j : Nat) : List Nat :=
  (litAt s [','] j).flatMap fun k => (wsStar s k).flatMap fun m => yearOrYearRange s m

/-- Fuel-driven greedy `(?:,\s*(?:\d{4}|\d{4}-\d{4}))*` (every iteration
consumes at least the comma, so `s.length + 1` fuel suffices). -/
def commaStarAux (s : Str) : Nat → Nat → List Nat
  | 0, j => [j]
  | fuel + 1, j =>
    ((commaItem s j).flatMap fun j2 => commaStarAux s fuel j2) ++ [j]

/-- Piece `(?:,\s*(?:\d{4}|\d{4}-\d{4}))*`. -/
def commaStar (s : Str) (j : Nat) : List Nat := commaStarAux s (s.length + 1) j

/-- Group 2 of the pattern: the whole years list. -/
def yearsGroup (s : Str) (i : Nat) : List Nat :=
  (yearOrYearRange s i).flatMap fun j => commaStar s j

/-- Literal word of group 1. -/
def copyrightWord : Str := "Copyright".toList

/-- All matches of the copyright pattern starting at position `i`, in
backtracking priority order, as the three group spans
`((span 1), (span 2), (span 3))` in half-open character offsets. -/
def matchCopyrightAt (s : Str) (i : Nat) :
    List ((Nat × Nat) × (Nat × Nat) × (Nat × Nat)) :=
  if caretAt s i then
    (optNonNl s i).flatMap fun j1 =>
    (wsStar s j1).flatMap fun j2 =>
    (litAt s copyrightWord j2).flatMap fun j3 =>
    (wsPlus s j3).flatMap fun j4 =>
    (yearsGroup s j4).flatMap fun j5 =>
    (wsPlus s j5).flatMap fun j6 =>
    (nonNlPlus s j6).flatMap fun j7 =>
    if dollarAt s j7 then [((j2, j3), (j4, j5), (j6, j7))] else []
  else []

/-- Leftmost-match scan of `regex.search`: the first start position whose
priority-ordered match list is nonempty, and that list's head. -/
def searchCopyrightAux (s : Str) : Nat → Nat → Option ((Nat × Nat) × (Nat × Nat) × (Nat × Nat))
  | 0, _ => none
  | fuel + 1, i =>
    if i ≤ s.length then
      match matchCopyrightAt s i with
      | sp :: _ => some sp
      | [] => searchCopyrightAux s fuel (i + 1)
    else none

/-- Translation of `_search_copyright_information` (parser.py lines
168-180): the spans of groups 1, 2 and 3 of the leftmost match, or the
Python `None, None, None` triple. -/
def _search_copyright_information (content : Str) :
    Option (Nat × Nat) × Option (Nat × Nat) × Option (Nat × Nat) :=
  match searchCopyrightAux content (content.length + 2) 0 with
  | none => (none, none, none)
  | some (cs, ys, ns) => (some cs, some ys, some ns)

/-!  Registries and file descriptors. -/

/-- Modelled from the spec: `UNKNOWN_IDENTIFIER` is imported by parser.py
from the `ament_copyright` package `__init__`, which is not among the
sources; section 6 of the spec fixes the sentinel to the single canonical
value "unknown". -/
def UNKNOWN_IDENTIFIER : String := "unknown"

/-- Modelled from the spec: a license registry entry is a record holding
the three template strings (spec, section 3). -/
structure LicenseRecord where
  file_header : Str
  license_file : Str
  contributing_file : Str
deriving DecidableEq

/-- Attribute name passed as the `license_part` argument of
`identify_license` and resolved by `getattr`. -/
inductive LicensePart
  | file_header
  | license_file
  | contributing_file
deriving DecidableEq

/-- Python `getattr(license, license_part)`. -/
def LicenseRecord.part : LicenseRecord → LicensePart → Str
  | L, .file_header => L.file_header
  | L, .license_file => L.license_file
  | L, .contributing_file => L.contributing_file

/-- The copyright-holder registry `get_copyright_names()`: identifier to
canonical holder name, insertion ordered (modelled from the spec as a
read-only parameter). -/
abbrev CopyrightNames := List (String × Str)

/-- The license registry `get_licenses()`: identifier to template record,
insertion ordered (modelled from the spec as a read-only parameter). -/
abbrev Licenses := List (String × LicenseRecord)

/-- Translation of `FileDescriptor.identify_copyright` (parser.py lines
44-50): the first registry entry whose canonical name equals the (non-None)
`copyright_name` wins; the `for`-`else` sets the sentinel otherwise. -/
def identify_copyright (copyright_names : CopyrightNames)
    (copyright_name : Option Str) : String :=
  match copyright_names.find?
      (fun p => match copyright_name with
        | some n => decide (n = p.2)
        | none => false) with
  | some p => p.1
  | none => UNKNOWN_IDENTIFIER

/-- Translation of `FileDescriptor.identify_license` (parser.py lines
52-58): the first registry entry whose selected template equals the
(non-None) `content` wins; the `for`-`else` sets the sentinel otherwise. -/
def identify_license (licenses : Licenses) (content : Option Str)
    (license_part : LicensePart) : String :=
  match licenses.find?
      (fun p => match content with
        | some c => decide (p.2.part license_part = c)
        | none => false) with
  | some p => p.1
  | none => UNKNOWN_IDENTIFIER

/-- The placeholder token substituted for the matched statement. -/
def placeholder : Str := "{copyright}".toList

/-- Translation of `_replace_copyright_with_placeholder` (parser.py lines
157-165).  Returns the recorded years and name substrings together with
the placeholder-substituted content, or `none` when the matcher found
nothing (the matcher returns its three spans together or not at all, see
`_search_copyright_information`, so matching on the first span alone, as
the source does, is equivalent to matching on all three). -/
def _replace_copyright_with_placeholder (content : Str) :
    Option (Str × Str × Str) :=
  match _search_copyright_information content with
  | (some cs, some ys, some ns) =>
    some ((content.take ys.2).drop ys.1,
          (content.take ns.2).drop ns.1,
          (content.take cs.1) ++ placeholder ++ content.drop ns.2)
  | _ => none

/-- State of a `SourceDescriptor` after `parse` (parser.py lines 61-95):
the four fields initialised to `None` in `__init__` and possibly assigned
by `parse`.  File reading is abstracted: `content` is `self.content` after
`read()`, and the not-existing-file case takes the same falsy early-return
branch as the empty string. -/
structure SourceDescriptor where
  copyright_years : Option Str := none
  copyright_name : Option Str := none
  copyright_identifier : Option String := none
  license_identifier : Option String := none
deriving DecidableEq

/-- Translation of `SourceDescriptor.parse` (parser.py lines 72-95).
`none` models an uncaught `IndexError` raised by
`scan_past_coding_and_shebang_lines`. -/
def SourceDescriptor.parse (copyright_names : CopyrightNames)
    (licenses : Licenses) (content : Str) : Option SourceDescriptor :=
  if content = [] then some {} else
  match scan_past_coding_and_shebang_lines content with
  | none => none
  | some index1 =>
    let index2 := scan_past_empty_lines content index1
    match get_comment_block content index2 with
    | none => some {}
    | some (block, _offset) =>
      if block = [] then some {} else
      match _search_copyright_information block with
      | (some _cs, some ys, some ns) =>
        let years := (block.take ys.2).drop ys.1
        let name := (block.take ns.2).drop ns.1
        let ci := identify_copyright copyright_names (some name)
        let cmp := placeholder ++ block.drop ns.2
        some { copyright_years := some years,
               copyright_name := some name,
               copyright_identifier := some ci,
               license_identifier := some (identify_license licenses (some cmp) .file_header) }
      | _ => some {}

/-- State of a `LicenseDescriptor` after `parse` (parser.py lines
113-132), fields as initialised in `__init__`. -/
structure LicenseDescriptor where
  copyright_years : Option Str := none
  copyright_name : Option Str := none
  copyright_identifier : Option String := none
  license_identifier : Option String := none
deriving DecidableEq

/-- Translation of `LicenseDescriptor.parse` (parser.py lines 124-132).
Note the source calls `identify_copyright` while `self.copyright_name` is
still `None` (it is assigned only afterwards, inside
`_replace_copyright_with_placeholder`), and `identify_license` receives
`None` when the matcher found nothing. -/
def LicenseDescriptor.parse (copyright_names : CopyrightNames)
    (licenses : Licenses) (content : Str) : LicenseDescriptor :=
  if content = [] then {} else
  let ci := identify_copyright copyright_names none
  match _replace_copyright_with_placeholder content with
  | some (ys, nm, newContent) =>
    { copyright_years := some ys,
      copyright_name := some nm,
      copyright_identifier := some ci,
      license_identifier := some (identify_license licenses (some newContent) .license_file) }
  | none =>
    { copyright_identifier := some ci,
      license_identifier := some (identify_license licenses none .license_file) }

/-!  Basic facts about `matchP`, `pyFind` and `listMin`. -/

theorem matchP_single_iff {s : Str} {c : Char} {i : Nat} :
    matchP s [c] i ↔ ∃ t, s.drop i = c :: t := by
  unfold matchP
  cases h : s.drop i with
  | nil => simp
  | cons a t => simp [List.take]

theorem matchP_pair_iff {s : Str} {a b : Char} {i : Nat} :
    matchP s [a, b] i ↔ ∃ t, s.drop i = a :: b :: t := by
  unfold matchP
  cases h : s.drop i with
  | nil => simp
  | cons x u =>
    cases u with
    | nil => simp
    | cons y v => simp [List.take]

theorem matchP_pair_left {s : Str} {a b : Char} {i : Nat}
    (h : matchP s [a, b] i) : matchP s [a] i := by
  rcases matchP_pair_iff.mp h with ⟨t, ht⟩
  exact matchP_single_iff.mpr ⟨b :: t, ht⟩

theorem matchP_mono_le {s pat : Str} {i : Nat} (hpat : pat ≠ [])
    (h : matchP s pat i) : i + pat.length ≤ s.length := by
  unfold matchP at h
  have hlen : ((s.drop i).take pat.length).length = pat.length := by rw [h]
  rw [List.length_take, List.length_drop] at hlen
  have hpos : 0 < pat.length := List.length_pos.mpr hpat
  omega

theorem pyFindAux_some_spec {s pat : Str} :
    ∀ {fuel i p : Nat}, pyFindAux s pat fuel i = some p →
      i ≤ p ∧ p ≤ s.length ∧ matchP s pat p ∧
        ∀ q, i ≤ q → q < p → ¬ matchP s pat q := by
  intro fuel
  induction fuel with
  | zero => intro i p h; simp [pyFindAux] at h
  | succ fuel ih =>
    intro i p h
    rw [pyFindAux] at h
    by_cases hle : i ≤ s.length
    · rw [if_pos hle] at h
      by_cases hm : matchP s pat i
      · rw [if_pos hm] at h
        obtain rfl : i = p := Option.some_injective _ h
        exact ⟨le_refl _, hle, hm, fun q h1 h2 => absurd h1 (by omega)⟩
      · rw [if_neg hm] at h
        obtain ⟨h1, h2, h3, h4⟩ := ih h
        refine ⟨by omega, h2, h3, fun q hq1 hq2 => ?_⟩
        rcases Nat.eq_or_lt_of_le hq1 with rfl | hq1
        · exact hm
        · exact h4 q hq1 hq2
    · rw [if_neg hle] at h; exact absurd h (by simp)

theorem pyFindAux_eq_some {s pat : Str} :
    ∀ {fuel i p : Nat}, s.length < fuel + i →
      i ≤ p → p ≤ s.length → matchP s pat p →
      (∀ q, i ≤ q → q < p → ¬ matchP s pat q) →
      pyFindAux s pat fuel i = some p := by
  intro fuel
  induction fuel with
  | zero => intro i p hfuel h1 h2 _ _; omega
  | succ fuel ih =>
    intro i p hfuel h1 h2 h3 h4
    rw [pyFindAux, if_pos (by omega)]
    rcases Nat.eq_or_lt_of_le h1 with rfl | hlt
    · rw [if_pos h3]
    · rw [if_neg (h4 i (le_refl _) hlt)]
      exact ih (by omega) hlt h2 h3 (fun q hq1 hq2 => h4 q (by omega) hq2)

theorem pyFindAux_eq_none {s pat : Str} :
    ∀ {fuel i : Nat}, (∀ q, i ≤ q → q ≤ s.length → ¬ matchP s pat q) →
      pyFindAux s pat fuel i = none := by
  intro fuel
  induction fuel with
  | zero => intro i _; rfl
  | succ fuel ih =>
    intro i h
    rw [pyFindAux]
    by_cases hle : i ≤ s.length
    · rw [if_pos hle, if_neg (h i (le_refl _) hle)]
      exact ih (fun q hq1 hq2 => h q (by omega) hq2)
    · rw [if_neg hle]

theorem pyFind_some_spec {s pat : Str} {i p : Nat}
    (h : pyFind s pat i = some p) :
    i ≤ p ∧ p ≤ s.length ∧ matchP s pat p ∧
      ∀ q, i ≤ q → q < p → ¬ matchP s pat q :=
  pyFindAux_some_spec h

theorem pyFind_eq_some {s pat : Str} {i p : Nat}
    (h1 : i ≤ p) (h2 : p ≤ s.length) (h3 : matchP s pat p)
    (h4 : ∀ q, i ≤ q → q < p → ¬ matchP s pat q) :
    pyFind s pat i = some p :=
  pyFindAux_eq_some (by omega) h1 h2 h3 h4

theorem pyFind_eq_none {s pat : Str} {i : Nat}
    (h : ∀ q, i ≤ q → q ≤ s.length → ¬ matchP s pat q) :
    pyFind s pat i = none :=
  pyFindAux_eq_none h

theorem foldl_min_le_init : ∀ (as : List Nat) (a : Nat), as.foldl Nat.min a ≤ a := by
  intro as
  induction as with
  | nil => intro a; exact le_refl _
  | cons x xs ih =>
    intro a
    calc (x :: xs).foldl Nat.min a = xs.foldl Nat.min (Nat.min a x) := rfl
    _ ≤ Nat.min a x := ih _
    _ ≤ a := Nat.min_le_left _ _

theorem foldl_min_le_mem : ∀ (as : List Nat) (a y : Nat), y ∈ as → as.foldl Nat.min a ≤ y := by
  intro as
  induction as with
  | nil => intro a y h; simp at h
  | cons x xs ih =>
    intro a y h
    rcases List.mem_cons.mp h with rfl | h
    · calc (y :: xs).foldl Nat.min a = xs.foldl Nat.min (Nat.min a y) := rfl
      _ ≤ Nat.min a y := foldl_min_le_init _ _
      _ ≤ y := Nat.min_le_right _ _
    · exact ih _ y h

theorem foldl_min_mem : ∀ (as : List Nat) (a : Nat),
    as.foldl Nat.min a = a ∨ as.foldl Nat.min a ∈ as := by
  intro as
  induction as with
  | nil => intro a; exact Or.inl rfl
  | cons x xs ih =>
    intro a
    rcases ih (Nat.min a x) with h | h
    · rcases Nat.le_total a x with hax | hax
      · left
        calc (x :: xs).foldl Nat.min a = xs.foldl Nat.min (Nat.min a x) := rfl
        _ = Nat.min a x := h
        _ = a := Nat.min_eq_left hax
      · right
        have h2 : (x :: xs).foldl Nat.min a = Nat.min a x := h
        have h3 : Nat.min a x = x := by show min a x = x; omega
        rw [h2, h3]
        exact List.mem_cons_self _ _
    · right
      exact List.mem_cons_of_mem _ h

theorem listMin_eq_some {l : List Nat} {x : Nat}
    (hx : x ∈ l) (hle : ∀ y ∈ l, x ≤ y) : listMin l = some x := by
  cases l with
  | nil => simp at hx
  | cons a as =>
    simp only [listMin, Option.some_inj]
    have h1 : as.foldl Nat.min a ≤ x := by
      rcases List.mem_cons.mp hx with rfl | hx
      · exact foldl_min_le_init _ _
      · exact foldl_min_le_mem _ _ _ hx
    have h2 : x ≤ as.foldl Nat.min a := by
      rcases foldl_min_mem as a with h | h
      · rw [h]; exact hle a (List.mem_cons_self _ _)
      · exact hle _ (List.mem_cons_of_mem _ h)
    omega

/-!  Characterisation of `get_index_of_next_line`. -/

theorem gnext_eq_of_rn {s : Str} {i p : Nat}
    (hn : pyFind s ['\n'] i = some (p + 1))
    (hr : pyFind s ['\r'] i = some p)
    (hrn : pyFind s ['\r', '\n'] i = some p) :
    get_index_of_next_line s i = p + 2 := by
  have hmin : listMin [p + 1, p, p] = some p := by
    apply listMin_eq_some <;> simp
  simp only [get_index_of_next_line, hn, hr, hrn, Option.toList_some,
    List.singleton_append, List.cons_append, List.nil_append, hmin]
  simp

theorem gnext_eq_of_n {s : Str} {i p : Nat}
    (hn : pyFind s ['\n'] i = some p)
    (hr : ∀ r, pyFind s ['\r'] i = some r → p < r)
    (hrn : ∀ r, pyFind s ['\r', '\n'] i = some r → p < r) :
    get_index_of_next_line s i = p + 1 := by
  rcases hfr : pyFind s ['\r'] i with - | r <;>
    rcases hfrn : pyFind s ['\r', '\n'] i with - | rn <;>
    simp only [get_index_of_next_line, hn, hfr, hfrn, Option.toList_some,
      Option.toList_none, List.singleton_append, List.cons_append,
      List.nil_append, List.append_nil]
  · rw [listMin_eq_some (List.mem_singleton_self p) (by simp)]
    simp
  · have hlt := hrn rn hfrn
    rw [listMin_eq_some (x := p) (by simp) (by simp; omega)]
    simp only []
    rw [if_neg (by simp; omega)]
  · have hlt := hr r hfr
    rw [listMin_eq_some (x := p) (by simp) (by simp; omega)]
    simp
  · have hlt1 := hr r hfr
    have hlt2 := hrn rn hfrn
    rw [listMin_eq_some (x := p) (by simp) (by simp; omega)]
    simp only []
    rw [if_neg (by simp; omega)]

theorem gnext_eq_of_r {s : Str} {i p : Nat}
    (hr : pyFind s ['\r'] i = some p)
    (hn : ∀ r, pyFind s ['\n'] i = some r → p < r)
    (hrn : ∀ r, pyFind s ['\r', '\n'] i = some r → p < r) :
    get_index_of_next_line s i = p + 1 := by
  rcases hfn : pyFind s ['\n'] i with - | n <;>
    rcases hfrn : pyFind s ['\r', '\n'] i with - | rn <;>
    simp only [get_index_of_next_line, hr, hfn, hfrn, Option.toList_some,
      Option.toList_none, List.singleton_append, List.cons_append,
      List.nil_append, List.append_nil]
  · rw [listMin_eq_some (List.mem_singleton_self p) (by simp)]
    simp
  · have hlt := hrn rn hfrn
    rw [listMin_eq_some (x := p) (by simp) (by simp; omega)]
    simp only []
    rw [if_neg (by simp; omega)]
  · have hlt := hn n hfn
    rw [listMin_eq_some (x := p) (by simp) (by simp; omega)]
    simp
  · have hlt1 := hn n hfn
    have hlt2 := hrn rn hfrn
    rw [listMin_eq_some (x := p) (by simp) (by simp; omega)]
    simp only []
    rw [if_neg (by simp; omega)]

/-- Characterisation of one `get_index_of_next_line` step: when the first
line terminator at or after `i` sits at position `p`, the step advances to
`p + 2` for a `\r\n` pair and to `p + 1` for a lone `\n` or a lone `\r`
(and never counts `\r\n` as two boundaries). -/
theorem next_line_spec (s : Str) (i p : Nat) (hip : i ≤ p)
    (hfirst : ∀ q, i ≤ q → q < p → ¬ matchP s ['\n'] q ∧ ¬ matchP s ['\r'] q) :
    (matchP s ['\r', '\n'] p → get_index_of_next_line s i = p + 2) ∧
    (matchP s ['\n'] p → get_index_of_next_line s i = p + 1) ∧
    (matchP s ['\r'] p → ¬ matchP s ['\r', '\n'] p → get_index_of_next_line s i = p + 1) := by
  refine ⟨fun h => ?_, fun h => ?_, fun h hnot => ?_⟩
  · obtain ⟨t, ht⟩ := matchP_pair_iff.mp h
    have hlen : p + 2 ≤ s.length := matchP_mono_le (by simp) h
    have hdp1 : s.drop (p + 1) = '\n' :: t := by
      have h1 : List.drop 1 (List.drop p s) = List.drop (p + 1) s := List.drop_drop 1 p s
      rw [ht] at h1
      simpa using h1.symm
    have hn : pyFind s ['\n'] i = some (p + 1) := by
      apply pyFind_eq_some (by omega) (by omega) (matchP_single_iff.mpr ⟨t, hdp1⟩)
      intro q hq1 hq2 hm
      rcases Nat.lt_or_ge q p with hqp | hqp
      · exact (hfirst q hq1 hqp).1 hm
      · have hqp2 : q = p := by omega
        subst hqp2
        obtain ⟨u, hu⟩ := matchP_single_iff.mp hm
        rw [ht] at hu
        simp at hu
    have hr : pyFind s ['\r'] i = some p := by
      apply pyFind_eq_some hip (by omega) (matchP_single_iff.mpr ⟨'\n' :: t, ht⟩)
      exact fun q hq1 hq2 => (hfirst q hq1 hq2).2
    have hrn : pyFind s ['\r', '\n'] i = some p := by
      apply pyFind_eq_some hip (by omega) h
      exact fun q hq1 hq2 hm => (hfirst q hq1 hq2).2 (matchP_pair_left hm)
    exact gnext_eq_of_rn hn hr hrn
  · obtain ⟨t, ht⟩ := matchP_single_iff.mp h
    have hlen : p + 1 ≤ s.length := matchP_mono_le (by simp) h
    have hn : pyFind s ['\n'] i = some p :=
      pyFind_eq_some hip (by omega) h (fun q h1 h2 => (hfirst q h1 h2).1)
    apply gnext_eq_of_n hn
    · intro r hfr
      obtain ⟨h1, h2, h3, h4⟩ := pyFind_some_spec hfr
      rcases Nat.lt_or_ge p r with hlt | hge
      · exact hlt
      · exfalso
        rcases Nat.eq_or_lt_of_le hge with rfl | hlt
        · obtain ⟨u, hu⟩ := matchP_single_iff.mp h3
          rw [ht] at hu
          simp at hu
        · exact (hfirst r h1 hlt).2 h3
    · intro r hfr
      obtain ⟨h1, h2, h3, h4⟩ := pyFind_some_spec hfr
      rcases Nat.lt_or_ge p r with hlt | hge
      · exact hlt
      · exfalso
        rcases Nat.eq_or_lt_of_le hge with rfl | hlt
        · obtain ⟨u, hu⟩ := matchP_pair_iff.mp h3
          rw [ht] at hu
          simp at hu
        · exact (hfirst r h1 hlt).2 (matchP_pair_left h3)
  · obtain ⟨t, ht⟩ := matchP_single_iff.mp h
    have hlen : p + 1 ≤ s.length := matchP_mono_le (by simp) h
    have hr : pyFind s ['\r'] i = some p :=
      pyFind_eq_some hip (by omega) h (fun q h1 h2 => (hfirst q h1 h2).2)
    apply gnext_eq_of_r hr
    · intro r hfr
      obtain ⟨h1, h2, h3, h4⟩ := pyFind_some_spec hfr
      rcases Nat.lt_or_ge p r with hlt | hge
      · exact hlt
      · exfalso
        rcases Nat.eq_or_lt_of_le hge with rfl | hlt
        · obtain ⟨u, hu⟩ := matchP_single_iff.mp h3
          rw [ht] at hu
          simp at hu
        · exact (hfirst r h1 hlt).1 h3
    · intro r hfr
      obtain ⟨h1, h2, h3, h4⟩ := pyFind_some_spec hfr
      rcases Nat.lt_or_ge p r with hlt | hge
      · exact hlt
      · exfalso
        rcases Nat.eq_or_lt_of_le hge with rfl | hlt
        · exact hnot h3
        · exact (hfirst r h1 hlt).2 (matchP_pair_left h3)

/-!  Easy registry facts. -/

theorem identify_copyright_none (names : CopyrightNames) :
    identify_copyright names none = UNKNOWN_IDENTIFIER := by
  unfold identify_copyright
  rw [List.find?_eq_none.mpr (fun x _ => by simp)]

theorem identify_license_none (licenses : Licenses) (part : LicensePart) :
    identify_license licenses none part = UNKNOWN_IDENTIFIER := by
  unfold identify_license
  rw [List.find?_eq_none.mpr (fun x _ => by simp)]

/-- C1: the License-file classifier of this source runs `identify_copyright`
before `_replace_copyright_with_placeholder` has recorded the holder name,
so `self.copyright_name` is still `None` during the lookup and the
copyright identifier is always the sentinel, whatever the registry holds
and whatever the matcher finds.  This contradicts the claim that a holder
name equal to a registered canonical name resolves `copyrightIdentifier`
to that registry key. -/
theorem claim_C1 (names : CopyrightNames) (licenses : Licenses) (content : Str)
    (h : content ≠ []) :
    (LicenseDescriptor.parse names licenses content).copyright_identifier =
      some UNKNOWN_IDENTIFIER := by
  unfold LicenseDescriptor.parse
  rw [if_neg h]
  rcases hrep : _replace_copyright_with_placeholder content with - | ⟨ys, nm, nc⟩ <;>
    simp [hrep, identify_copyright_none]

/-- Witness for C1: a license file whose copyright statement names exactly
the registered canonical holder still gets `copyrightIdentifier`
"unknown" (while the name itself is recorded). -/
theorem claim_C1_witness :
    (LicenseDescriptor.parse [("jane", "Jane Doe".toList)] []
        ("Copyright 2019 Jane Doe\nrest".toList)).copyright_identifier =
      some UNKNOWN_IDENTIFIER ∧
    (LicenseDescriptor.parse [("jane", "Jane Doe".toList)] []
        ("Copyright 2019 Jane Doe\nrest".toList)).copyright_name =
      some ("Jane Doe".toList) :=
  ⟨claim_C1 [("jane", "Jane Doe".toList)] [] ("Copyright 2019 Jane Doe\nrest".toList)
      (by decide), by decide⟩

/-- C2: when the matcher finds no copyright statement in a License-file's
content, `_replace_copyright_with_placeholder` returns `None`, and this
source's `identify_license` then takes its `for`-`else` branch and sets
`license_identifier` to the sentinel "unknown" instead of leaving the
field unset as the claim (and the spec's deliberate unset-vs-unknown
distinction) requires. -/
theorem claim_C2 (names : CopyrightNames) (licenses : Licenses) (content : Str)
    (h : content ≠ [])
    (hnomatch : _search_copyright_information content = (none, none, none)) :
    (LicenseDescriptor.parse names licenses content).license_identifier =
      some UNKNOWN_IDENTIFIER := by
  unfold LicenseDescriptor.parse
  rw [if_neg h]
  have hrep : _replace_copyright_with_placeholder content = none := by
    unfold _replace_copyright_with_placeholder
    rw [hnomatch]
  simp [hrep, identify_license_none]

/-- Witness for C2: plain text with no copyright statement gets
`license_identifier` set to "unknown" (not left unset). -/
theorem claim_C2_witness :
    (LicenseDescriptor.parse [] [("apache2", ⟨[], [], []⟩)]
        ("just some text".toList)).license_identifier = some UNKNOWN_IDENTIFIER :=
  claim_C2 [] [("apache2", ⟨[], [], []⟩)] ("just some text".toList)
    (by decide) (by decide)

/-- C6 counterexample: applied to the empty string, the preamble scanner
does not return offset 0; the very first `is_comment_line` test indexes
`content[0]` of the empty string and raises `IndexError` (modelled as
`none`). -/
theorem claim_C6_counterexample :
    scan_past_coding_and_shebang_lines ([] : Str) = none ∧
    ¬ scan_past_coding_and_shebang_lines ([] : Str) = some 0 := by decide

/-- C6 (amended): on empty content the preamble scanner raises an
`IndexError` (because `is_comment_line` indexes position 0 of the empty
string) instead of returning 0; the classifiers never trigger this, since
`parse` returns early on empty content, leaving every field unset and
raising nothing. -/
theorem claim_C6 :
    scan_past_coding_and_shebang_lines ([] : Str) = none ∧
    is_comment_line ([] : Str) 0 = none ∧
    SourceDescriptor.parse [] [] ([] : Str) = some {} ∧
    LicenseDescriptor.parse [] [] ([] : Str) = {} := by decide

/-- C7: a line whose first two characters are `//` is never recognised by
`is_comment_line`: the source compares the one-character slice
`content[index:index + 1]` against the two-character token `'//'`, which
cannot succeed, so only `#` lines count as comment lines — a
`//`-style encoding line is not skipped like a `#`-style one. -/
theorem claim_C7 :
    (∀ (s : Str) (i : Nat), is_comment_line s i = some true → matchP s ['#'] i) ∧
    is_comment_line ("// coding: utf-8\n".toList) 0 = some false ∧
    matchP ("// coding: utf-8\n".toList) ['/', '/'] 0 := by
  refine ⟨fun s i h => ?_, by decide, by decide⟩
  unfold is_comment_line at h
  by_cases hlt : i < s.length
  · rw [dif_pos hlt] at h
    have hb : ((s.drop i).take 1 = ['/', '/']) = False := by
      simp only [eq_iff_iff, iff_false]
      intro hcontra
      have := congrArg List.length hcontra
      simp [List.length_take] at this
      omega
    simp only [hb, decide_False, Bool.or_false, Option.some_inj] at h
    have hh : s[i] = '#' := by simpa using h
    unfold matchP
    rw [List.drop_eq_getElem_cons hlt, hh]
    rfl
  · rw [dif_neg hlt] at h
    exact absurd h (by simp)

/-- Witness for C7: a `#` line is (correctly) recognised, exercising the
general direction of the theorem. -/
theorem claim_C7_witness : matchP ("#x".toList) ['#'] 0 :=
  claim_C7.1 ("#x".toList) 0 (by decide)

/-- C8: one `get_index_of_next_line` step moves past exactly one logical
line for each terminator: when the first terminator at or after `i` is the
pair `\r\n` at `p` (the lone `\r` and the `\r\n` are found at the same
position), the step advances two characters to `p + 2`, never counting
`\r\n` as two boundaries; a first lone `\n` or lone `\r` at `p` advances
to `p + 1`. -/
theorem claim_C8 (s : Str) (i p : Nat) (hip : i ≤ p)
    (hfirst : ∀ q, i ≤ q → q < p → ¬ matchP s ['\n'] q ∧ ¬ matchP s ['\r'] q) :
    (matchP s ['\r', '\n'] p → get_index_of_next_line s i = p + 2) ∧
    (matchP s ['\n'] p → get_index_of_next_line s i = p + 1) ∧
    (matchP s ['\r'] p → ¬ matchP s ['\r', '\n'] p → get_index_of_next_line s i = p + 1) :=
  next_line_spec s i p hip hfirst

/-- Witness for C8 on the three concrete terminators. -/
theorem claim_C8_witness :
    get_index_of_next_line ("ab\r\ncd".toList) 0 = 4 ∧
    get_index_of_next_line ("ab\ncd".toList) 0 = 3 ∧
    get_index_of_next_line ("ab\rcd".toList) 0 = 3 := by
  have hf1 : ∀ q, 0 ≤ q → q < 2 →
      ¬ matchP ("ab\r\ncd".toList) ['\n'] q ∧ ¬ matchP ("ab\r\ncd".toList) ['\r'] q := by
    intro q h1 h2
    interval_cases q <;> exact ⟨by decide, by decide⟩
  have hf2 : ∀ q, 0 ≤ q → q < 2 →
      ¬ matchP ("ab\ncd".toList) ['\n'] q ∧ ¬ matchP ("ab\ncd".toList) ['\r'] q := by
    intro q h1 h2
    interval_cases q <;> exact ⟨by decide, by decide⟩
  have hf3 : ∀ q, 0 ≤ q → q < 2 →
      ¬ matchP ("ab\rcd".toList) ['\n'] q ∧ ¬ matchP ("ab\rcd".toList) ['\r'] q := by
    intro q h1 h2
    interval_cases q <;> exact ⟨by decide, by decide⟩
  exact ⟨(claim_C8 _ 0 2 (by omega) hf1).1 (by decide),
         (claim_C8 _ 0 2 (by omega) hf2).2.1 (by decide),
         (claim_C8 _ 0 2 (by omega) hf3).2.2 (by decide) (by decide)⟩

/-- C9: `is_empty_line` recognises a blank line exactly when the next-line
index is the offset plus one, so a blank line terminated by the
two-character boundary `\r\n` is not recognised and `scan_past_empty_lines`
does not advance past it; blank lines terminated by a lone `\n` or a lone
`\r` are recognised (and skipped). -/
theorem claim_C9 (s : Str) (i : Nat) :
    (is_empty_line s i = true ↔ get_index_of_next_line s i = i + 1) ∧
    (matchP s ['\r', '\n'] i → is_empty_line s i = false ∧ scan_past_empty_lines s i = i) ∧
    (matchP s ['\n'] i → is_empty_line s i = true) ∧
    (matchP s ['\r'] i → ¬ matchP s ['\r', '\n'] i → is_empty_line s i = true) := by
  have hvac : ∀ q, i ≤ q → q < i → ¬ matchP s ['\n'] q ∧ ¬ matchP s ['\r'] q :=
    fun q h1 h2 => absurd (Nat.lt_of_le_of_lt h1 h2) (Nat.lt_irrefl _)
  refine ⟨by simp [is_empty_line], fun h => ?_, fun h => ?_, fun h hnot => ?_⟩
  · have hg : get_index_of_next_line s i = i + 2 :=
      (next_line_spec s i i (le_refl _) hvac).1 h
    have hempty : is_empty_line s i = false := by
      simp [is_empty_line, hg]
    refine ⟨hempty, ?_⟩
    show scanPastEmptyLinesAux s (s.length + 2) i = i
    rw [show s.length + 2 = (s.length + 1) + 1 from rfl, scanPastEmptyLinesAux]
    rw [hempty]
    simp
  · have hg : get_index_of_next_line s i = i + 1 :=
      (next_line_spec s i i (le_refl _) hvac).2.1 h
    simp [is_empty_line, hg]
  · have hg : get_index_of_next_line s i = i + 1 :=
      (next_line_spec s i i (le_refl _) hvac).2.2 h hnot
    simp [is_empty_line, hg]

/-- Witness for C9: a `\r\n`-terminated blank line is not skipped; lone
`\n` and lone `\r` blank lines are recognised as empty. -/
theorem claim_C9_witness :
    scan_past_empty_lines ("\r\nx".toList) 0 = 0 ∧
    is_empty_line ("\nx".toList) 0 = true ∧
    is_empty_line ("\rx".toList) 0 = true :=
  ⟨((claim_C9 ("\r\nx".toList) 0).2.1 (by decide)).2,
   (claim_C9 ("\nx".toList) 0).2.2.1 (by decide),
   (claim_C9 ("\rx".toList) 0).2.2.2 (by decide) (by decide)⟩

/-!  Structure of matcher results (for C5). -/

theorem matchCopyrightAt_spec {s : Str} {i : Nat}
    {sp : (Nat × Nat) × (Nat × Nat) × (Nat × Nat)}
    (h : sp ∈ matchCopyrightAt s i) :
    sp.1.2 = sp.1.1 + 9 ∧ matchP s copyrightWord sp.1.1 := by
  unfold matchCopyrightAt at h
  split at h
  · simp only [List.mem_flatMap] at h
    obtain ⟨j1, hj1, j2, hj2, j3, hj3, j4, hj4, j5, hj5, j6, hj6, j7, hj7, hsp⟩ := h
    unfold litAt at hj3
    split at hj3
    · next hm =>
      have hj3e : j3 = j2 + copyrightWord.length := by simpa using hj3
      split at hsp
      · have hspe : sp = ((j2, j3), (j4, j5), (j6, j7)) := by simpa using hsp
        subst hspe
        exact ⟨by simp [hj3e, copyrightWord], by simpa using hm⟩
      · simp at hsp
    · simp at hj3
  · simp at h

theorem searchCopyrightAux_some_mem {s : Str} :
    ∀ {fuel i : Nat} {sp}, searchCopyrightAux s fuel i = some sp →
      ∃ j, sp ∈ matchCopyrightAt s j := by
  intro fuel
  induction fuel with
  | zero => intro i sp h; simp [searchCopyrightAux] at h
  | succ fuel ih =>
    intro i sp h
    rw [searchCopyrightAux] at h
    by_cases hle : i ≤ s.length
    · rw [if_pos hle] at h
      rcases hm : matchCopyrightAt s i with - | ⟨sp2, tl⟩
      · rw [hm] at h
        exact ih h
      · rw [hm] at h
        have hsp : sp2 = sp := by simpa using h
        exact ⟨i, by rw [hm, ← hsp]; exact List.mem_cons_self _ _⟩
    · rw [if_neg hle] at h
      exact absurd h (by simp)

/-- C5 counterexample: on `Copyright 2019 Jane Doe` the first returned
span is `(0, 9)` — it covers only the literal word `Copyright` — while
the full matched statement extends to offset 23 (the end of the holder
name), so the first span does not cover the years and the holder name. -/
theorem claim_C5_counterexample :
    _search_copyright_information ("Copyright 2019 Jane Doe".toList) =
      (some (0, 9), some (10, 14), some (15, 23)) ∧
    ¬ ((0, 9) : Nat × Nat).2 = 23 := by decide

/-- C5 (amended): the three spans are returned together or not at all —
for every input the result is either three `some` spans or the triple of
`none` — and the first returned span covers exactly the literal word
`Copyright` (group 1 of the pattern), nine characters starting at the
word, not the full matched statement. -/
theorem claim_C5 (s : Str) :
    (∀ c y n, _search_copyright_information s = (some c, some y, some n) →
        c.2 = c.1 + 9 ∧ matchP s copyrightWord c.1) ∧
    ((∃ c y n, _search_copyright_information s = (some c, some y, some n)) ∨
      _search_copyright_information s = (none, none, none)) := by
  constructor
  · intro c y n h
    rcases hs : searchCopyrightAux s (s.length + 2) 0 with - | ⟨cs, ys, ns⟩
    · have hval : _search_copyright_information s = (none, none, none) := by
        unfold _search_copyright_information
        rw [hs]
      rw [hval] at h
      simp at h
    · have hval : _search_copyright_information s = (some cs, some ys, some ns) := by
        unfold _search_copyright_information
        rw [hs]
      rw [hval] at h
      obtain ⟨j, hmem⟩ := searchCopyrightAux_some_mem hs
      have hspec := matchCopyrightAt_spec hmem
      simp only [Prod.mk.injEq, Option.some_inj] at h
      obtain ⟨h1, -, -⟩ := h
      subst h1
      exact hspec
  · rcases hs : searchCopyrightAux s (s.length + 2) 0 with - | ⟨a, b, c⟩
    · right
      unfold _search_copyright_information
      rw [hs]
    · left
      refine ⟨a, b, c, ?_⟩
      unfold _search_copyright_information
      rw [hs]

/-- Witness for C5 at a concrete match and a concrete non-match. -/
theorem claim_C5_witness :
    (((0, 9) : Nat × Nat).2 = ((0, 9) : Nat × Nat).1 + 9 ∧
      matchP ("Copyright 2019 Jane Doe".toList) copyrightWord ((0, 9) : Nat × Nat).1) ∧
    ((∃ c y n, _search_copyright_information ("no match here".toList) =
        (some c, some y, some n)) ∨
      _search_copyright_information ("no match here".toList) = (none, none, none)) :=
  ⟨(claim_C5 ("Copyright 2019 Jane Doe".toList)).1 (0, 9) (10, 14) (15, 23) (by decide),
   (claim_C5 ("no match here".toList)).2⟩

/-!  Evaluation lemmas for the pattern pieces (towards C3 and C4). -/

theorem not_matchP_single {s : Str} {i : Nat} {c d : Char} {t : Str}
    (hd : s.drop i = c :: t) (hne : c ≠ d) : ¬ matchP s [d] i := by
  intro hm
  obtain ⟨u, hu⟩ := matchP_single_iff.mp hm
  rw [hd] at hu
  exact hne (by injection hu)

theorem isPySpace_eq_false_of_digit {c : Char} (h : isPyDigit c = true) :
    isPySpace c = false := by
  unfold isPyDigit at h
  simp only [decide_eq_true_eq] at h
  simp only [isPySpace, decide_eq_false_iff_not]
  rintro (rfl | rfl | rfl | rfl | rfl | rfl) <;> exact absurd h (by decide)

theorem optNonNl_eq_two {s : Str} {i : Nat} {c : Char} {t : Str}
    (hd : s.drop i = c :: t) (hc : c ≠ '\n' ∧ c ≠ '\r') :
    optNonNl s i = [i + 1, i] := by
  unfold optNonNl
  rw [hd]
  simp [hc]

theorem wsStar_eq_single {s : Str} {i : Nat} {c : Char} {t : Str}
    (hd : s.drop i = c :: t) (hc : isPySpace c = false) : wsStar s i = [i] := by
  unfold wsStar
  rw [wsStarAux, hd]
  simp [hc]

theorem wsPlus_eq_star {s : Str} {i : Nat} {c : Char} {t : Str}
    (hd : s.drop i = c :: t) (hc : isPySpace c = true) :
    wsPlus s i = wsStar s (i + 1) := by
  unfold wsPlus
  rw [hd]
  simp [hc]

theorem litAt_pos {s pat : Str} {i : Nat} (h : matchP s pat i) :
    litAt s pat i = [i + pat.length] := by
  unfold litAt
  rw [if_pos h]

theorem litAt_neg {s pat : Str} {i : Nat} (h : ¬ matchP s pat i) :
    litAt s pat i = [] := by
  unfold litAt
  rw [if_neg h]

theorem digit4_pos {s : Str} {i : Nat} {a b c d : Char} {t : Str}
    (hd : s.drop i = a :: b :: c :: d :: t)
    (hall : ([a, b, c, d] : Str).all isPyDigit = true) : digit4 s i = [i + 4] := by
  unfold digit4
  rw [hd]
  simp [hall]

theorem commaStar_eq_stop {s : Str} {i : Nat} {c : Char} {t : Str}
    (hd : s.drop i = c :: t) (hc : c ≠ ',') : commaStar s i = [i] := by
  unfold commaStar
  rw [commaStarAux]
  have h1 : litAt s [','] i = [] := litAt_neg (not_matchP_single hd hc)
  simp [commaItem, h1]

theorem nonNlStarAux_dollar_flatMap {α : Type} (s : Str) :
    ∀ (nm : Str) (fuel i : Nat) (rest : Str) (F : Nat → List α),
      nm.length < fuel → i ≤ s.length →
      s.drop i = nm ++ rest →
      (∀ c ∈ nm, c ≠ '\n' ∧ c ≠ '\r') →
      (rest = [] ∨ ∃ r, rest = '\n' :: r) →
      (nonNlStarAux s fuel i).flatMap (fun j => if dollarAt s j then F j else []) =
        F (i + nm.length) := by
  intro nm
  induction nm with
  | nil =>
    intro fuel i rest F hfuel hile hd hnm hrest
    rcases Nat.exists_eq_succ_of_ne_zero (Nat.pos_iff_ne_zero.mp hfuel) with ⟨f, rfl⟩
    rw [nonNlStarAux]
    simp only [List.nil_append] at hd
    rcases hrest with rfl | ⟨r, rfl⟩
    · have hlen : s.length ≤ i := by
        have := congrArg List.length hd
        simp [List.length_drop] at this
        omega
      have hieq : i = s.length := Nat.le_antisymm hile hlen
      rw [hd]
      have hdol : dollarAt s i = true := by
        unfold dollarAt
        simp [hieq]
      simp [hdol]
    · rw [hd]
      have hdol : dollarAt s i = true := by
        unfold dollarAt
        rw [hd]
        simp
      simp [hdol]
  | cons c nm2 ih =>
    intro fuel i rest F hfuel hile hd hnm hrest
    rcases Nat.exists_eq_succ_of_ne_zero (by omega : fuel ≠ 0) with ⟨f, rfl⟩
    rw [nonNlStarAux]
    simp only [List.cons_append] at hd
    rw [hd]
    have hcprop := hnm c (List.mem_cons_self _ _)
    have hilt : i < s.length := by
      have := congrArg List.length hd
      simp [List.length_drop] at this
      omega
    have hd1 : s.drop (i + 1) = nm2 ++ rest := by
      have h1 : List.drop 1 (List.drop i s) = List.drop (i + 1) s := List.drop_drop 1 i s
      rw [hd] at h1
      simpa using h1.symm
    have hdol : dollarAt s i = false := by
      unfold dollarAt
      rw [hd]
      simp only [List.take, Bool.or_eq_false_iff, decide_eq_false_iff_not]
      exact ⟨by omega, by simp [hcprop.1]⟩
    simp only [hcprop, ne_eq, not_false_eq_true, and_self, if_true, List.flatMap_append,
      List.flatMap_cons, List.flatMap_nil, List.append_nil, hdol, Bool.false_eq_true,
      if_false]
    rw [ih f (i + 1) rest F (by simpa using hfuel) (by omega) hd1
      (fun x hx => hnm x (List.mem_cons_of_mem _ hx)) hrest]
    have : i + 1 + nm2.length = i + (c :: nm2).length := by simp; omega
    rw [this]

theorem nonNlStar_dollar_flatMap {α : Type} {s nm rest : Str} {i : Nat} {F : Nat → List α}
    (hd : s.drop i = nm ++ rest)
    (hnm : ∀ c ∈ nm, c ≠ '\n' ∧ c ≠ '\r')
    (hrest : rest = [] ∨ ∃ r, rest = '\n' :: r)
    (hile : i ≤ s.length) :
    (nonNlStar s i).flatMap (fun j => if dollarAt s j then F j else []) =
      F (i + nm.length) := by
  unfold nonNlStar
  apply nonNlStarAux_dollar_flatMap s nm (s.length + 1) i rest F ?_ hile hd hnm hrest
  have := congrArg List.length hd
  simp [List.length_drop] at this
  omega

/-!  The matcher on a canonical single-line statement `Copyright YYYY Name`. -/

/-- Canonical copyright statement `Copyright <ys> <nm>` (the word, one
space, the years token, one space, the holder name). -/
def canonicalStmt (ys nm : Str) : Str :=
  'C' :: 'o' :: 'p' :: 'y' :: 'r' :: 'i' :: 'g' :: 'h' :: 't' :: ' ' :: (ys ++ ' ' :: nm)

/-- Fully cons-expanded form of `canonicalStmt ++ rest` used in proofs. -/
def canonFlat (y1 y2 y3 y4 n0 : Char) (t : Str) : Str :=
  'C' :: 'o' :: 'p' :: 'y' :: 'r' :: 'i' :: 'g' :: 'h' :: 't' :: ' ' ::
    y1 :: y2 :: y3 :: y4 :: ' ' :: n0 :: t

theorem matchCopyrightAt_canonFlat (y1 y2 y3 y4 n0 : Char) (nm2 rest : Str)
    (hysd : ([y1, y2, y3, y4] : Str).all isPyDigit = true)
    (hn0s : isPySpace n0 = false) (hn0nl : n0 ≠ '\n' ∧ n0 ≠ '\r')
    (hnm2 : ∀ c ∈ nm2, c ≠ '\n' ∧ c ≠ '\r')
    (hrest : rest = [] ∨ ∃ r, rest = '\n' :: r) :
    matchCopyrightAt (canonFlat y1 y2 y3 y4 n0 (nm2 ++ rest)) 0 =
      [((0, 9), (10, 14), (15, 16 + nm2.length))] := by
  have hd1 : isPyDigit y1 = true := by
    simp only [List.all_cons, Bool.and_eq_true] at hysd
    exact hysd.1
  have hcaret : caretAt (canonFlat y1 y2 y3 y4 n0 (nm2 ++ rest)) 0 = true := rfl
  have hopt : optNonNl (canonFlat y1 y2 y3 y4 n0 (nm2 ++ rest)) 0 = [1, 0] :=
    optNonNl_eq_two rfl (by decide)
  have hws1 : wsStar (canonFlat y1 y2 y3 y4 n0 (nm2 ++ rest)) 1 = [1] :=
    wsStar_eq_single rfl (by decide)
  have hlit1 : litAt (canonFlat y1 y2 y3 y4 n0 (nm2 ++ rest)) copyrightWord 1 = [] := by
    apply litAt_neg
    intro hm
    exact absurd (show (['o', 'p', 'y', 'r', 'i', 'g', 'h', 't', ' '] : Str) =
      copyrightWord from hm) (by decide)
  have hws0 : wsStar (canonFlat y1 y2 y3 y4 n0 (nm2 ++ rest)) 0 = [0] :=
    wsStar_eq_single rfl (by decide)
  have hm0 : matchP (canonFlat y1 y2 y3 y4 n0 (nm2 ++ rest)) copyrightWord 0 := rfl
  have hlit0 : litAt (canonFlat y1 y2 y3 y4 n0 (nm2 ++ rest)) copyrightWord 0 = [9] := by
    rw [litAt_pos hm0]
    decide
  have hwp9 : wsPlus (canonFlat y1 y2 y3 y4 n0 (nm2 ++ rest)) 9 =
      wsStar (canonFlat y1 y2 y3 y4 n0 (nm2 ++ rest)) 10 :=
    wsPlus_eq_star rfl (by decide)
  have hws10 : wsStar (canonFlat y1 y2 y3 y4 n0 (nm2 ++ rest)) 10 = [10] :=
    wsStar_eq_single rfl (isPySpace_eq_false_of_digit hd1)
  have hdig : digit4 (canonFlat y1 y2 y3 y4 n0 (nm2 ++ rest)) 10 = [14] := by
    have hd : (canonFlat y1 y2 y3 y4 n0 (nm2 ++ rest)).drop 10 =
        y1 :: y2 :: y3 :: y4 :: (' ' :: n0 :: (nm2 ++ rest)) := rfl
    rw [digit4_pos hd hysd]
  have hrange : yearRange (canonFlat y1 y2 y3 y4 n0 (nm2 ++ rest)) 10 = [] := by
    unfold yearRange
    rw [hdig]
    have hminus : litAt (canonFlat y1 y2 y3 y4 n0 (nm2 ++ rest)) ['-'] 14 = [] := by
      apply litAt_neg
      intro hm
      exact absurd (show ([' '] : Str) = ['-'] from hm) (by decide)
    simp [hminus]
  have hyor : yearOrYearRange (canonFlat y1 y2 y3 y4 n0 (nm2 ++ rest)) 10 = [14] := by
    unfold yearOrYearRange
    rw [hdig, hrange]
    simp
  have hcst : commaStar (canonFlat y1 y2 y3 y4 n0 (nm2 ++ rest)) 14 = [14] :=
    commaStar_eq_stop rfl (by decide)
  have hyg : yearsGroup (canonFlat y1 y2 y3 y4 n0 (nm2 ++ rest)) 10 = [14] := by
    unfold yearsGroup
    rw [hyor]
    simp [hcst]
  have hwp14 : wsPlus (canonFlat y1 y2 y3 y4 n0 (nm2 ++ rest)) 14 =
      wsStar (canonFlat y1 y2 y3 y4 n0 (nm2 ++ rest)) 15 :=
    wsPlus_eq_star rfl (by decide)
  have hws15 : wsStar (canonFlat y1 y2 y3 y4 n0 (nm2 ++ rest)) 15 = [15] :=
    wsStar_eq_single rfl hn0s
  have hnnp : nonNlPlus (canonFlat y1 y2 y3 y4 n0 (nm2 ++ rest)) 15 =
      nonNlStar (canonFlat y1 y2 y3 y4 n0 (nm2 ++ rest)) 16 := by
    have hd : (canonFlat y1 y2 y3 y4 n0 (nm2 ++ rest)).drop 15 = n0 :: (nm2 ++ rest) := rfl
    unfold nonNlPlus
    rw [hd]
    simp [hn0nl]
  have hile : 16 ≤ (canonFlat y1 y2 y3 y4 n0 (nm2 ++ rest)).length := by
    simp [canonFlat]
  have hfin : (nonNlStar (canonFlat y1 y2 y3 y4 n0 (nm2 ++ rest)) 16).flatMap
      (fun j7 => if dollarAt (canonFlat y1 y2 y3 y4 n0 (nm2 ++ rest)) j7 then
        [(((0 : Nat), (9 : Nat)), ((10 : Nat), (14 : Nat)), ((15 : Nat), j7))] else []) =
      [((0, 9), (10, 14), (15, 16 + nm2.length))] := by
    have hd : (canonFlat y1 y2 y3 y4 n0 (nm2 ++ rest)).drop 16 = nm2 ++ rest := rfl
    exact nonNlStar_dollar_flatMap hd hnm2 hrest hile
  simp only [matchCopyrightAt, hcaret, if_true, hopt, hws1, hws0, hlit1, hlit0, hwp9,
    hws10, hyg, hwp14, hws15, hnnp, List.flatMap_cons, List.flatMap_nil,
    List.nil_append, List.append_nil]
  exact hfin

theorem search_canonFlat (y1 y2 y3 y4 n0 : Char) (nm2 rest : Str)
    (hysd : ([y1, y2, y3, y4] : Str).all isPyDigit = true)
    (hn0s : isPySpace n0 = false) (hn0nl : n0 ≠ '\n' ∧ n0 ≠ '\r')
    (hnm2 : ∀ c ∈ nm2, c ≠ '\n' ∧ c ≠ '\r')
    (hrest : rest = [] ∨ ∃ r, rest = '\n' :: r) :
    _search_copyright_information (canonFlat y1 y2 y3 y4 n0 (nm2 ++ rest)) =
      (some (0, 9), some (10, 14), some (15, 16 + nm2.length)) := by
  have hm := matchCopyrightAt_canonFlat y1 y2 y3 y4 n0 nm2 rest hysd hn0s hn0nl hnm2 hrest
  have hs : searchCopyrightAux (canonFlat y1 y2 y3 y4 n0 (nm2 ++ rest))
      ((canonFlat y1 y2 y3 y4 n0 (nm2 ++ rest)).length + 2) 0 =
      some ((0, 9), (10, 14), (15, 16 + nm2.length)) := by
    rw [show (canonFlat y1 y2 y3 y4 n0 (nm2 ++ rest)).length + 2 =
        ((canonFlat y1 y2 y3 y4 n0 (nm2 ++ rest)).length + 1) + 1 from rfl,
      searchCopyrightAux]
    rw [if_pos (Nat.zero_le _), hm]
  unfold _search_copyright_information
  rw [hs]

theorem take_drop_middle_append (A B C : Str) :
    ((A ++ B ++ C).take (A.length + B.length)).drop A.length = B := by
  have h1 : (A ++ B ++ C).take (A.length + B.length) = A ++ B :=
    List.take_left' (by simp)
  rw [h1]
  exact List.drop_left A B

/-- The matcher on `Copyright <ys> <nm><rest>` where `ys` is a four-digit
year, `nm` a holder name (nonempty, free of `\n`/`\r`, not starting with
whitespace) and `rest` empty or starting a new line: the spans are group 1
`(0, 9)` (the word), group 2 `(10, 14)` (the years) and group 3
`(15, 15 + nm.length)` (the holder name), and the spans slice back to the
years and the name. -/
theorem search_canonicalStmt (ys nm rest : Str)
    (hys : ys.length = 4) (hysd : ys.all isPyDigit = true)
    (hnm : nm ≠ []) (hnmc : ∀ c ∈ nm, c ≠ '\n' ∧ c ≠ '\r')
    (hn0 : isPySpace nm.headI = false)
    (hrest : rest = [] ∨ ∃ r, rest = '\n' :: r) :
    _search_copyright_information (canonicalStmt ys nm ++ rest) =
      (some (0, 9), some (10, 14), some (15, 15 + nm.length)) ∧
    ((canonicalStmt ys nm ++ rest).take 14).drop 10 = ys ∧
    ((canonicalStmt ys nm ++ rest).take (15 + nm.length)).drop 15 = nm := by
  rcases ys with - | ⟨y1, ys⟩; · simp at hys
  rcases ys with - | ⟨y2, ys⟩; · simp at hys
  rcases ys with - | ⟨y3, ys⟩; · simp at hys
  rcases ys with - | ⟨y4, ys⟩; · simp at hys
  rcases ys with - | ⟨y5, ys⟩
  swap; · simp at hys
  rcases nm with - | ⟨n0, nm2⟩; · exact absurd rfl hnm
  have hn0s : isPySpace n0 = false := hn0
  have hn0nl : n0 ≠ '\n' ∧ n0 ≠ '\r' := hnmc n0 (List.mem_cons_self _ _)
  have hnm2 : ∀ c ∈ nm2, c ≠ '\n' ∧ c ≠ '\r' :=
    fun c hc => hnmc c (List.mem_cons_of_mem _ hc)
  have hflat : canonicalStmt [y1, y2, y3, y4] (n0 :: nm2) ++ rest =
      canonFlat y1 y2 y3 y4 n0 (nm2 ++ rest) := rfl
  have hlen : 16 + nm2.length = 15 + (n0 :: nm2 : Str).length := by
    simp
    omega
  refine ⟨?_, rfl, ?_⟩
  · rw [hflat]
    rw [search_canonFlat y1 y2 y3 y4 n0 nm2 rest hysd hn0s hn0nl hnm2 hrest, hlen]
  · have h := take_drop_middle_append
      ('C' :: 'o' :: 'p' :: 'y' :: 'r' :: 'i' :: 'g' :: 'h' :: 't' :: ' ' ::
        y1 :: y2 :: y3 :: y4 :: ' ' :: ([] : Str)) (n0 :: nm2) rest
    simpa using h

/-- C4: the matcher recovers the years and holder-name substrings exactly:
for every canonical statement `Copyright <ys> <nm>` (four-digit years
token, holder name not starting with whitespace and free of line breaks)
the years span slices back to `ys` and the name span to `nm`; a year range
`Copyright 2015-2019 Jane Doe` yields the years span `2015-2019`; the
comma list `Copyright 2015, 2017, 2019 Jane Doe` yields the full unsplit
comma list as the years span. -/
theorem claim_C4 :
    (∀ ys nm rest : Str, ys.length = 4 → ys.all isPyDigit = true →
      nm ≠ [] → (∀ c ∈ nm, c ≠ '\n' ∧ c ≠ '\r') → isPySpace nm.headI = false →
      (rest = [] ∨ ∃ r, rest = '\n' :: r) →
      _search_copyright_information (canonicalStmt ys nm ++ rest) =
          (some (0, 9), some (10, 14), some (15, 15 + nm.length)) ∧
        ((canonicalStmt ys nm ++ rest).take 14).drop 10 = ys ∧
        ((canonicalStmt ys nm ++ rest).take (15 + nm.length)).drop 15 = nm) ∧
    (_search_copyright_information ("Copyright 2015-2019 Jane Doe".toList) =
        (some (0, 9), some (10, 19), some (20, 28)) ∧
      (("Copyright 2015-2019 Jane Doe".toList.take 19).drop 10 = "2015-2019".toList) ∧
      (("Copyright 2015-2019 Jane Doe".toList.take 28).drop 20 = "Jane Doe".toList)) ∧
    (_search_copyright_information ("Copyright 2015, 2017, 2019 Jane Doe".toList) =
        (some (0, 9), some (10, 26), some (27, 35)) ∧
      (("Copyright 2015, 2017, 2019 Jane Doe".toList.take 26).drop 10 =
        "2015, 2017, 2019".toList) ∧
      (("Copyright 2015, 2017, 2019 Jane Doe".toList.take 35).drop 27 =
        "Jane Doe".toList)) := by
  refine ⟨fun ys nm rest h1 h2 h3 h4 h5 h6 =>
    search_canonicalStmt ys nm rest h1 h2 h3 h4 h5 h6, by decide, by decide⟩

/-- Witness for C4: the general part applied to `Copyright 2019 Jane Doe`. -/
theorem claim_C4_witness :
    _search_copyright_information (canonicalStmt "2019".toList "Jane Doe".toList ++ []) =
        (some (0, 9), some (10, 14), some (15, 15 + ("Jane Doe".toList).length)) ∧
      ((canonicalStmt "2019".toList "Jane Doe".toList ++ []).take 14).drop 10 =
        "2019".toList ∧
      ((canonicalStmt "2019".toList "Jane Doe".toList ++ []).take
          (15 + ("Jane Doe".toList).length)).drop 15 = "Jane Doe".toList :=
  claim_C4.1 "2019".toList "Jane Doe".toList [] (by decide) (by decide) (by decide)
    (by decide) (by decide) (Or.inl rfl)

/-- C10: on the Source path, when a copyright match is found in the
extracted block, the string compared against each license's `file_header`
template is exactly `{copyright}` followed by the block content after the
holder name — everything before the end of the holder name, including any
block text preceding the statement, is discarded; whereas the License path
(`_replace_copyright_with_placeholder`) keeps the content before the
matched statement around the placeholder. -/
theorem claim_C10 (names : CopyrightNames) (licenses : Licenses) (content : Str)
    (block : Str) (off i1 : Nat) (cs ysp nsp : Nat × Nat)
    (hcne : content ≠ [])
    (hscan : scan_past_coding_and_shebang_lines content = some i1)
    (hblock : get_comment_block content (scan_past_empty_lines content i1) =
      some (block, off))
    (hne : block ≠ [])
    (hsearch : _search_copyright_information block = (some cs, some ysp, some nsp)) :
    (SourceDescriptor.parse names licenses content).map (fun d => d.license_identifier) =
      some (some (identify_license licenses
        (some (placeholder ++ block.drop nsp.2)) LicensePart.file_header)) ∧
    (∀ content2 : Str, ∀ cs2 ysp2 nsp2 : Nat × Nat,
      _search_copyright_information content2 = (some cs2, some ysp2, some nsp2) →
      _replace_copyright_with_placeholder content2 =
        some ((content2.take ysp2.2).drop ysp2.1, (content2.take nsp2.2).drop nsp2.1,
          (content2.take cs2.1) ++ placeholder ++ content2.drop nsp2.2)) := by
  constructor
  · unfold SourceDescriptor.parse
    rw [if_neg hcne, hscan]
    simp only [hblock, hsearch, hne, if_neg]
    simp [hne]
  · intro content2 cs2 ysp2 nsp2 hsearch2
    unfold _replace_copyright_with_placeholder
    rw [hsearch2]

/-- Witness for C10: block text `hello` before the statement is discarded
by the Source path and kept by the License path. -/
theorem claim_C10_witness :
    ((SourceDescriptor.parse [] [] ("# hello\n# Copyright 2019 Jane Doe\n# more".toList)).map
        (fun d => d.license_identifier) =
      some (some (identify_license []
        (some (placeholder ++ ("hello\nCopyright 2019 Jane Doe\nmore".toList).drop 29))
        LicensePart.file_header))) ∧
    _replace_copyright_with_placeholder ("hello\nCopyright 2019 Jane Doe\nmore".toList) =
      some ((("hello\nCopyright 2019 Jane Doe\nmore".toList).take 20).drop 16,
        (("hello\nCopyright 2019 Jane Doe\nmore".toList).take 29).drop 21,
        (("hello\nCopyright 2019 Jane Doe\nmore".toList).take 6) ++ placeholder ++
          ("hello\nCopyright 2019 Jane Doe\nmore".toList).drop 29) := by
  have h := claim_C10 [] [] ("# hello\n# Copyright 2019 Jane Doe\n# more".toList)
    ("hello\nCopyright 2019 Jane Doe\nmore".toList) 2 0 (6, 15) (16, 20) (21, 29)
    (by decide) (by decide) (by decide) (by decide) (by decide)
  exact ⟨h.1, h.2 ("hello\nCopyright 2019 Jane Doe\nmore".toList) (6, 15) (16, 20) (21, 29)
    (by decide)⟩

/-!  Presenting text as a comment block (towards C3). -/

/-- Split at `\n` only: the line structure of a text whose only line
boundaries are `\n` (proof-layer helper). -/
def splitNl : Str → List Str
  | [] => [[]]
  | c :: r =>
    if c = '\n' then [] :: splitNl r
    else
      match splitNl r with
      | l :: ls => (c :: l) :: ls
      | [] => [[c]]

/-- Present the given lines as a `#`-marker comment block: each line
prefixed with `# `, lines joined with `\n`. -/
def commentLines : List Str → Str
  | [] => []
  | [l] => '#' :: ' ' :: l
  | l :: L => '#' :: ' ' :: l ++ '\n' :: commentLines L

/-- Present arbitrary text as a `#`-marker comment block. -/
def commentize (t : Str) : Str := commentLines (splitNl t)

theorem splitNl_ne_nil (t : Str) : splitNl t ≠ [] := by
  induction t with
  | nil => simp [splitNl]
  | cons c r ih =>
    by_cases hc : c = '\n'
    · simp [splitNl, hc]
    · rcases h : splitNl r with - | ⟨l, ls⟩
      · exact absurd h ih
      · simp [splitNl, hc, h]

theorem intercalate_splitNl (t : Str) : List.intercalate ['\n'] (splitNl t) = t := by
  induction t with
  | nil => simp [splitNl, List.intercalate]
  | cons c r ih =>
    by_cases hc : c = '\n'
    · subst hc
      rcases h : splitNl r with - | ⟨l, ls⟩
      · exact absurd h (splitNl_ne_nil r)
      · rw [h] at ih
        have hsp : splitNl ('\n' :: r) = [] :: l :: ls := by simp [splitNl, h]
        rw [hsp]
        rw [show List.intercalate ['\n'] ([] :: l :: ls) =
            [] ++ ['\n'] ++ List.intercalate ['\n'] (l :: ls) by
          simp [List.intercalate, List.intersperse]]
        simp [ih]
    · rcases h : splitNl r with - | ⟨l, ls⟩
      · exact absurd h (splitNl_ne_nil r)
      · rw [h] at ih
        have hsp : splitNl (c :: r) = (c :: l) :: ls := by simp [splitNl, hc, h]
        rw [hsp]
        cases ls with
        | nil =>
          simp [List.intercalate] at ih ⊢
          simp [ih]
        | cons l2 ls2 =>
          rw [show List.intercalate ['\n'] ((c :: l) :: l2 :: ls2) =
              (c :: l) ++ ['\n'] ++ List.intercalate ['\n'] (l2 :: ls2) by
            simp [List.intercalate, List.intersperse]]
          rw [show List.intercalate ['\n'] (l :: l2 :: ls2) =
              l ++ ['\n'] ++ List.intercalate ['\n'] (l2 :: ls2) by
            simp [List.intercalate, List.intersperse]] at ih
          rw [← ih]
          simp

theorem splitNl_mem {t l : Str} {c : Char} (hl : l ∈ splitNl t) (hc : c ∈ l) :
    c ∈ t ∧ c ≠ '\n' := by
  induction t generalizing l with
  | nil =>
    simp [splitNl] at hl
    subst hl
    simp at hc
  | cons a r ih =>
    by_cases ha : a = '\n'
    · subst ha
      have hsp : splitNl ('\n' :: r) = [] :: splitNl r := by simp [splitNl]
      rw [hsp] at hl
      rcases List.mem_cons.mp hl with rfl | hl
      · simp at hc
      · have := ih hl hc
        exact ⟨List.mem_cons_of_mem _ this.1, this.2⟩
    · cases h : splitNl r with
      | nil => exact absurd h (splitNl_ne_nil r)
      | cons l2 ls =>
        have hsp : splitNl (a :: r) = (a :: l2) :: ls := by simp [splitNl, ha, h]
        rw [hsp] at hl
        rcases List.mem_cons.mp hl with rfl | hl
        · rcases List.mem_cons.mp hc with rfl | hc2
          · exact ⟨List.mem_cons_self _ _, ha⟩
          · have := ih (l := l2) (by rw [h]; exact List.mem_cons_self _ _) hc2
            exact ⟨List.mem_cons_of_mem _ this.1, this.2⟩
        · have := ih (by rw [h]; exact List.mem_cons_of_mem _ hl) hc
          exact ⟨List.mem_cons_of_mem _ this.1, this.2⟩

theorem commentLines_cons₂ (l : Str) (L : List Str) (hL : L ≠ []) :
    commentLines (l :: L) = '#' :: ' ' :: (l ++ '\n' :: commentLines L) := by
  cases L with
  | nil => exact absurd rfl hL
  | cons l2 L2 => rfl

theorem commentLines_head (L : List Str) (hL : L ≠ []) :
    ∃ t, commentLines L = '#' :: ' ' :: t := by
  cases L with
  | nil => exact absurd rfl hL
  | cons l L2 =>
    cases L2 with
    | nil => exact ⟨l, rfl⟩
    | cons l2 L3 => exact ⟨l ++ '\n' :: commentLines (l2 :: L3), rfl⟩

theorem mem_commentLines {L : List Str} {c : Char} (h : c ∈ commentLines L) :
    c = '#' ∨ c = ' ' ∨ c = '\n' ∨ ∃ l ∈ L, c ∈ l := by
  induction L with
  | nil => simp [commentLines] at h
  | cons l L ih =>
    cases L with
    | nil =>
      simp only [commentLines, List.mem_cons] at h
      rcases h with rfl | rfl | h
      · exact Or.inl rfl
      · exact Or.inr (Or.inl rfl)
      · exact Or.inr (Or.inr (Or.inr ⟨l, List.mem_cons_self _ _, h⟩))
    | cons l2 L2 =>
      rw [commentLines_cons₂ l (l2 :: L2) (by simp)] at h
      simp only [List.mem_cons, List.mem_append] at h
      rcases h with rfl | rfl | h | h
      · exact Or.inl rfl
      · exact Or.inr (Or.inl rfl)
      · exact Or.inr (Or.inr (Or.inr ⟨l, List.mem_cons_self _ _, h⟩))
      · rcases h with rfl | h2
        · exact Or.inr (Or.inr (Or.inl rfl))
        · rcases ih h2 with h3 | h3 | h3 | ⟨l3, hl3, hc3⟩
          · exact Or.inl h3
          · exact Or.inr (Or.inl h3)
          · exact Or.inr (Or.inr (Or.inl h3))
          · exact Or.inr (Or.inr (Or.inr ⟨l3, List.mem_cons_of_mem _ hl3, hc3⟩))

theorem splitFirstLine_no_break (line : Str)
    (h : ∀ c ∈ line, isPyLineBreak c = false) :
    splitFirstLine line = (line, none) := by
  induction line with
  | nil => rfl
  | cons c rest ih =>
    have hc : isPyLineBreak c = false := h c (List.mem_cons_self _ _)
    have hcr : ¬ (c = '\r') := fun hh => by
      subst hh
      exact absurd hc (by decide)
    simp [splitFirstLine, hcr, hc, ih (fun x hx => h x (List.mem_cons_of_mem _ hx))]

theorem splitFirstLine_append_nl (line rest2 : Str)
    (h : ∀ c ∈ line, isPyLineBreak c = false) :
    splitFirstLine (line ++ '\n' :: rest2) = (line, some rest2) := by
  induction line with
  | nil => simp [splitFirstLine]; decide
  | cons c rest ih =>
    have hc : isPyLineBreak c = false := h c (List.mem_cons_self _ _)
    have hcr : ¬ (c = '\r') := fun hh => by
      subst hh
      exact absurd hc (by decide)
    simp [splitFirstLine, hcr, hc, ih (fun x hx => h x (List.mem_cons_of_mem _ hx))]

theorem pySplitlinesAux_commentLines :
    ∀ (L : List Str) (fuel : Nat), L.length ≤ fuel →
      (∀ l ∈ L, ∀ c ∈ l, isPyLineBreak c = false) →
      pySplitlinesAux fuel (commentLines L) = L.map (fun l => '#' :: ' ' :: l) := by
  intro L
  induction L with
  | nil =>
    intro fuel _ _
    cases fuel <;> rfl
  | cons l L ih =>
    intro fuel hfuel hsafe
    have hl : ∀ c ∈ l, isPyLineBreak c = false := hsafe l (List.mem_cons_self _ _)
    obtain ⟨f, rfl⟩ : ∃ f, fuel = f + 1 := ⟨fuel - 1, by simp at hfuel; omega⟩
    have hline : ∀ c ∈ ('#' :: ' ' :: l : Str), isPyLineBreak c = false := by
      intro c hcmem
      rcases List.mem_cons.mp hcmem with rfl | hcmem
      · decide
      · rcases List.mem_cons.mp hcmem with rfl | hcmem
        · decide
        · exact hl c hcmem
    cases L with
    | nil =>
      have hs : commentLines [l] = '#' :: ' ' :: l := rfl
      rw [hs]
      have hsfl : splitFirstLine ('#' :: ' ' :: l) = ('#' :: ' ' :: l, none) :=
        splitFirstLine_no_break _ hline
      simp [pySplitlinesAux, hsfl]
    | cons l2 L2 =>
      rw [commentLines_cons₂ l (l2 :: L2) (by simp)]
      have hform : ('#' :: ' ' :: (l ++ '\n' :: commentLines (l2 :: L2)) : Str) =
          ('#' :: ' ' :: l) ++ '\n' :: commentLines (l2 :: L2) := by simp
      have hsfl : splitFirstLine ('#' :: ' ' :: (l ++ '\n' :: commentLines (l2 :: L2))) =
          ('#' :: ' ' :: l, some (commentLines (l2 :: L2))) := by
        rw [hform]
        exact splitFirstLine_append_nl _ _ hline
      have hrec := ih f (by simp at hfuel ⊢; omega)
        (fun x hx => hsafe x (List.mem_cons_of_mem _ hx))
      simp [pySplitlinesAux, hsfl, hrec]

theorem commentLines_length_ge (L : List Str) :
    L.length ≤ (commentLines L).length + 1 := by
  induction L with
  | nil => simp [commentLines]
  | cons l L ih =>
    cases L with
    | nil => simp [commentLines]
    | cons l2 L2 =>
      rw [commentLines_cons₂ l (l2 :: L2) (by simp)]
      simp only [List.length_cons, List.length_append] at ih ⊢
      omega

theorem pySplitlines_commentLines (L : List Str)
    (hsafe : ∀ l ∈ L, ∀ c ∈ l, isPyLineBreak c = false) :
    pySplitlines (commentLines L) = L.map (fun l => '#' :: ' ' :: l) := by
  unfold pySplitlines
  exact pySplitlinesAux_commentLines L ((commentLines L).length + 1)
    (commentLines_length_ge L) hsafe

/-!  Line terminators inside a comment block (towards C3). -/

theorem listMin_mem {l : List Nat} {m : Nat} (h : listMin l = some m) : m ∈ l := by
  cases l with
  | nil => simp [listMin] at h
  | cons a as =>
    have hm : as.foldl Nat.min a = m := by simpa [listMin] using h
    rcases foldl_min_mem as a with h2 | h2
    · rw [hm] at h2
      rw [← h2]
      exact List.mem_cons_self _ _
    · rw [hm] at h2
      exact List.mem_cons_of_mem _ h2

theorem not_matchP_of_ge {s : Str} {c : Char} {q : Nat} (h : s.length ≤ q) :
    ¬ matchP s [c] q := by
  intro hm
  have := matchP_mono_le (by simp) hm
  simp at this
  omega

theorem ne_nl_cr_of_not_break {c : Char} (hc : isPyLineBreak c = false) :
    c ≠ '\n' ∧ c ≠ '\r' := by
  constructor
  · intro h
    subst h
    exact absurd hc (by decide)
  · intro h
    subst h
    exact absurd hc (by decide)

theorem isPyLineBreak_eq_false_of_digit {c : Char} (h : isPyDigit c = true) :
    isPyLineBreak c = false := by
  unfold isPyDigit at h
  simp only [decide_eq_true_eq] at h
  simp only [isPyLineBreak, decide_eq_false_iff_not]
  intro hmem
  simp only [List.mem_cons, List.not_mem_nil] at hmem
  rcases hmem with rfl | rfl | rfl | rfl | rfl | rfl | rfl | rfl | rfl | rfl | h2
  all_goals first
    | exact absurd h (by decide)
    | exact h2.elim

theorem not_term_within {s : Str} {i : Nat} {line Y : Str}
    (hd : s.drop i = line ++ Y) (hline : ∀ c ∈ line, isPyLineBreak c = false)
    {q : Nat} (hq : i ≤ q) (hqlt : q < i + line.length) :
    ¬ matchP s ['\n'] q ∧ ¬ matchP s ['\r'] q := by
  have hk : q - i < line.length := by omega
  have hdq : s.drop q = line.drop (q - i) ++ Y := by
    have h1 : List.drop (q - i) (List.drop i s) = List.drop (i + (q - i)) s :=
      List.drop_drop (q - i) i s
    rw [hd] at h1
    rw [(by omega : i + (q - i) = q)] at h1
    have h2 : (line ++ Y).drop (q - i) = line.drop (q - i) ++ Y :=
      List.drop_append_of_le_length (by omega)
    rw [← h1, h2]
  have hcons : line.drop (q - i) = line.get ⟨q - i, hk⟩ :: line.drop (q - i + 1) :=
    List.drop_eq_getElem_cons hk
  have hmem : line.get ⟨q - i, hk⟩ ∈ line := List.getElem_mem hk
  have hnb := ne_nl_cr_of_not_break (hline _ hmem)
  constructor
  · intro hm
    obtain ⟨u, hu⟩ := matchP_single_iff.mp hm
    rw [hdq, hcons] at hu
    simp only [List.cons_append, List.cons.injEq] at hu
    exact hnb.1 hu.1
  · intro hm
    obtain ⟨u, hu⟩ := matchP_single_iff.mp hm
    rw [hdq, hcons] at hu
    simp only [List.cons_append, List.cons.injEq] at hu
    exact hnb.2 hu.1

theorem gnext_eq_length {s : Str} {i : Nat}
    (h : ∀ q, i ≤ q → ¬ matchP s ['\n'] q ∧ ¬ matchP s ['\r'] q) :
    get_index_of_next_line s i = s.length := by
  have hn : pyFind s ['\n'] i = none := pyFind_eq_none (fun q hq _ => (h q hq).1)
  have hr : pyFind s ['\r'] i = none := pyFind_eq_none (fun q hq _ => (h q hq).2)
  have hrn : pyFind s ['\r', '\n'] i = none :=
    pyFind_eq_none (fun q hq _ hm => (h q hq).2 (matchP_pair_left hm))
  simp [get_index_of_next_line, hn, hr, hrn, listMin]

theorem gnext_block_step {s A line Y : Str}
    (hs : s = A ++ ('#' :: ' ' :: line) ++ '\n' :: Y)
    (hline : ∀ c ∈ line, isPyLineBreak c = false) :
    get_index_of_next_line s A.length = A.length + line.length + 3 := by
  have hdA : s.drop A.length = ('#' :: ' ' :: line) ++ '\n' :: Y := by
    rw [hs, List.append_assoc]
    exact List.drop_left _ _
  have hp : s.drop (A.length + (line.length + 2)) = '\n' :: Y := by
    rw [hs]
    have : (A ++ ('#' :: ' ' :: line)).length = A.length + (line.length + 2) := by
      simp
    rw [← this]
    exact List.drop_left _ _
  have hlinesafe : ∀ c ∈ ('#' :: ' ' :: line : Str), isPyLineBreak c = false := by
    intro c hcmem
    rcases List.mem_cons.mp hcmem with rfl | hcmem
    · decide
    · rcases List.mem_cons.mp hcmem with rfl | hcmem
      · decide
      · exact hline c hcmem
  have hmatch : matchP s ['\n'] (A.length + (line.length + 2)) :=
    matchP_single_iff.mpr ⟨Y, hp⟩
  have hfirst : ∀ q, A.length ≤ q → q < A.length + (line.length + 2) →
      ¬ matchP s ['\n'] q ∧ ¬ matchP s ['\r'] q := by
    intro q hq hqlt
    exact not_term_within hdA hlinesafe hq (by simp only [List.length_cons]; omega)
  have := (next_line_spec s A.length (A.length + (line.length + 2)) (by omega) hfirst).2.1 hmatch
  omega

theorem gnext_block_last {s A line : Str}
    (hs : s = A ++ ('#' :: ' ' :: line))
    (hline : ∀ c ∈ line, isPyLineBreak c = false) :
    get_index_of_next_line s A.length = s.length := by
  have hdA : s.drop A.length = ('#' :: ' ' :: line) ++ [] := by
    rw [hs, List.append_nil]
    exact List.drop_left _ _
  have hlinesafe : ∀ c ∈ ('#' :: ' ' :: line : Str), isPyLineBreak c = false := by
    intro c hcmem
    rcases List.mem_cons.mp hcmem with rfl | hcmem
    · decide
    · rcases List.mem_cons.mp hcmem with rfl | hcmem
      · decide
      · exact hline c hcmem
  have hslen : s.length = A.length + (line.length + 2) := by
    rw [hs]
    simp
  apply gnext_eq_length
  intro q hq
  by_cases hlt : q < A.length + (line.length + 2)
  · exact not_term_within hdA hlinesafe hq (by simp only [List.length_cons]; omega)
  · constructor
    · exact not_matchP_of_ge (by omega)
    · exact not_matchP_of_ge (by omega)

theorem blockEndAux_commentLines (s : Str) :
    ∀ (L : List Str) (A : Str) (fuel : Nat),
      s = A ++ commentLines L → L ≠ [] → L.length ≤ fuel →
      (∀ l ∈ L, ∀ c ∈ l, isPyLineBreak c = false) →
      blockEndAux s ['#'] fuel A.length = s.length := by
  intro L
  induction L with
  | nil => intro A fuel hs hL; exact absurd rfl hL
  | cons l L ih =>
    intro A fuel hs hL hfuel hsafe
    obtain ⟨f, rfl⟩ : ∃ f, fuel = f + 1 := ⟨fuel - 1, by simp at hfuel; omega⟩
    have hl : ∀ c ∈ l, isPyLineBreak c = false := hsafe l (List.mem_cons_self _ _)
    cases L with
    | nil =>
      have hs2 : s = A ++ ('#' :: ' ' :: l) := hs
      have hg : get_index_of_next_line s A.length = s.length := gnext_block_last hs2 hl
      have hnm : ¬ matchP s ['#'] s.length := not_matchP_of_ge (le_refl _)
      rw [blockEndAux]
      simp only [hg]
      rw [if_neg ?_]
      · exact hnm
    | cons l2 L2 =>
      have hCL : commentLines (l :: l2 :: L2) =
          '#' :: ' ' :: (l ++ '\n' :: commentLines (l2 :: L2)) :=
        commentLines_cons₂ _ _ (by simp)
      have hs2 : s = A ++ ('#' :: ' ' :: l) ++ '\n' :: commentLines (l2 :: L2) := by
        rw [hs, hCL]
        simp
      have hg : get_index_of_next_line s A.length = A.length + l.length + 3 :=
        gnext_block_step hs2 hl
      have hA2 : s = (A ++ ('#' :: ' ' :: l) ++ ['\n']) ++ commentLines (l2 :: L2) := by
        rw [hs2]
        simp
      have hlen2 : (A ++ ('#' :: ' ' :: l) ++ ['\n']).length = A.length + l.length + 3 := by
        simp only [List.length_append, List.length_cons, List.length_nil]
        omega
      have hmatch : matchP s ['#'] (A.length + l.length + 3) := by
        obtain ⟨t, ht⟩ := commentLines_head (l2 :: L2) (by simp)
        apply matchP_single_iff.mpr
        refine ⟨' ' :: t, ?_⟩
        rw [hA2, ← hlen2, List.drop_left, ht]
      rw [blockEndAux]
      simp only [hg]
      rw [if_pos hmatch]
      have hrec := ih (A ++ ('#' :: ' ' :: l) ++ ['\n']) f hA2 (by simp)
        (by simp at hfuel ⊢; omega)
        (fun x hx => hsafe x (List.mem_cons_of_mem _ hx))
      rw [hlen2] at hrec
      exact hrec

theorem get_comment_block_commentLines (L : List Str) (hL : L ≠ [])
    (hsafe : ∀ l ∈ L, ∀ c ∈ l, isPyLineBreak c = false) :
    get_comment_block (commentLines L) 0 = some (List.intercalate ['\n'] L, 2) := by
  obtain ⟨t, ht⟩ := commentLines_head L hL
  have hm0 : matchP (commentLines L) ['#'] 0 := by
    apply matchP_single_iff.mpr
    exact ⟨' ' :: t, by rw [List.drop_zero, ht]⟩
  have hcaret : caretAt (commentLines L) 0 = true := rfl
  have hfind : findCommentStartAux (commentLines L) ((commentLines L).length + 2) 0 =
      some (0, ['#']) := by
    rw [show (commentLines L).length + 2 = ((commentLines L).length + 1) + 1 from rfl,
      findCommentStartAux]
    rw [if_pos (Nat.zero_le _), hcaret]
    simp only [if_true]
    rw [if_pos hm0]
  have hend : blockEndAux (commentLines L) ['#'] ((commentLines L).length + 2) 0 =
      (commentLines L).length := by
    have := blockEndAux_commentLines (commentLines L) L []
      ((commentLines L).length + 2) (by simp) hL
      (le_trans (commentLines_length_ge L) (by omega)) hsafe
    simpa using this
  unfold get_comment_block
  rw [hfind]
  simp only [hend, List.take_length, List.drop_zero]
  rw [pySplitlines_commentLines L hsafe]
  simp only [List.map_map]
  have hmaps : L.map ((fun line : Str => line.drop ((['#'] : Str).length + 1)) ∘
      fun l : Str => '#' :: ' ' :: l) = L := by
    have h2 := List.map_congr_left
      (f := (fun line : Str => line.drop ((['#'] : Str).length + 1)) ∘
        fun l : Str => '#' :: ' ' :: l)
      (g := id) (l := L) (fun a _ => rfl)
    simpa using h2
  rw [hmaps]
  rfl

theorem gnext_zero_ne_one {s : Str}
    (h0 : ¬ matchP s ['\n'] 0 ∧ ¬ matchP s ['\r'] 0)
    (hlen : s.length ≠ 1) : get_index_of_next_line s 0 ≠ 1 := by
  intro hg
  simp only [get_index_of_next_line] at hg
  cases hm : listMin ((pyFind s ['\n'] 0).toList ++ (pyFind s ['\r'] 0).toList ++
      (pyFind s ['\r', '\n'] 0).toList) with
  | none =>
    rw [hm] at hg
    exact hlen hg
  | some m =>
    rw [hm] at hg
    change (if pyFind s ['\r', '\n'] 0 = some m then m + 2 else m + 1) = 1 at hg
    have hmem := listMin_mem hm
    by_cases hif : pyFind s ['\r', '\n'] 0 = some m
    · rw [if_pos hif] at hg
      omega
    · rw [if_neg hif] at hg
      have hm0 : m = 0 := by omega
      subst hm0
      simp only [List.mem_append] at hmem
      rcases hmem with (hmem | hmem) | hmem
      · have : pyFind s ['\n'] 0 = some 0 := by
          cases hf : pyFind s ['\n'] 0 <;> rw [hf] at hmem <;> simp at hmem
          · simp [hmem]
        exact h0.1 (pyFind_some_spec this).2.2.1
      · have : pyFind s ['\r'] 0 = some 0 := by
          cases hf : pyFind s ['\r'] 0 <;> rw [hf] at hmem <;> simp at hmem
          · simp [hmem]
        exact h0.2 (pyFind_some_spec this).2.2.1
      · have : pyFind s ['\r', '\n'] 0 = some 0 := by
          cases hf : pyFind s ['\r', '\n'] 0 <;> rw [hf] at hmem <;> simp at hmem
          · simp [hmem]
        exact h0.2 (matchP_pair_left (pyFind_some_spec this).2.2.1)

theorem scanEmpty_hash_line {s t : Str} (hs : s = '#' :: ' ' :: t) :
    scan_past_empty_lines s 0 = 0 := by
  subst hs
  have h0 : ¬ matchP ('#' :: ' ' :: t : Str) ['\n'] 0 ∧
      ¬ matchP ('#' :: ' ' :: t : Str) ['\r'] 0 := by
    constructor <;>
      (intro hm; obtain ⟨u, hu⟩ := matchP_single_iff.mp hm; simp at hu)
  have hlen : ('#' :: ' ' :: t : Str).length ≠ 1 := by simp
  have hemp : is_empty_line ('#' :: ' ' :: t : Str) 0 = false := by
    simp only [is_empty_line, decide_eq_false_iff_not]
    have := gnext_zero_ne_one h0 hlen
    simpa using this
  show scanPastEmptyLinesAux _ (('#' :: ' ' :: t : Str).length + 2) 0 = 0
  rw [show ('#' :: ' ' :: t : Str).length + 2 =
      (('#' :: ' ' :: t : Str).length + 1) + 1 from rfl,
    scanPastEmptyLinesAux, hemp]
  simp

theorem scan_hash_line {s t : Str} (hs : s = '#' :: ' ' :: t)
    (hcoding : is_coding_line s 0 = false) :
    scan_past_coding_and_shebang_lines s = some 0 := by
  subst hs
  have hcomment : is_comment_line ('#' :: ' ' :: t : Str) 0 = some true := by
    simp [is_comment_line]
  have hshebang : is_shebang_line ('#' :: ' ' :: t : Str) 0 = false := rfl
  show scanPastCodingAndShebangAux _ (('#' :: ' ' :: t : Str).length + 2) 0 = some 0
  rw [show ('#' :: ' ' :: t : Str).length + 2 =
      (('#' :: ' ' :: t : Str).length + 1) + 1 from rfl,
    scanPastCodingAndShebangAux, hcomment]
  simp [hcoding, hshebang]

/-- C3: round-trip through the Source-File Classifier.  Take a registered
license whose `file_header` template is the placeholder followed by `rest`
(a template tail beginning on a fresh line), substitute the placeholder
with a canonical statement `Copyright <ys> <nm>` for an arbitrary
holder-plus-trailing text `nm`, and present the result as a `#`-comment
block: `parse` re-extracts and re-normalizes exactly the template string,
records the years and holder name, and assigns that license's identifier,
not "unknown". -/
theorem claim_C3 (names : CopyrightNames) (licenses : Licenses) (key : String)
    (L0 : LicenseRecord) (ys nm rest : Str)
    (hys : ys.length = 4) (hysd : ys.all isPyDigit = true)
    (hnm : nm ≠ []) (hnmc : ∀ c ∈ nm, isPyLineBreak c = false)
    (hn0 : isPySpace nm.headI = false)
    (hrest : rest = [] ∨ ∃ r, rest = '\n' :: r)
    (hrestsafe : ∀ c ∈ rest, c = '\n' ∨ isPyLineBreak c = false)
    (hT : L0.file_header = placeholder ++ rest)
    (hfound : identify_license licenses (some L0.file_header) LicensePart.file_header = key)
    (hku : key ≠ UNKNOWN_IDENTIFIER)
    (hcoding : is_coding_line (commentize (canonicalStmt ys nm ++ rest)) 0 = false) :
    SourceDescriptor.parse names licenses (commentize (canonicalStmt ys nm ++ rest)) =
      some { copyright_years := some ys,
             copyright_name := some nm,
             copyright_identifier := some (identify_copyright names (some nm)),
             license_identifier := some key } ∧
    placeholder ++ (canonicalStmt ys nm ++ rest).drop (15 + nm.length) = L0.file_header ∧
    key ≠ UNKNOWN_IDENTIFIER := by
  have hdigall : ∀ c ∈ ys, isPyDigit c = true := by
    intro c hc
    exact List.all_eq_true.mp hysd c hc
  have hsubstsafe : ∀ c ∈ canonicalStmt ys nm ++ rest,
      c = '\n' ∨ isPyLineBreak c = false := by
    intro c hc
    simp only [canonicalStmt, List.mem_cons, List.mem_append] at hc
    rcases hc with
      (rfl | rfl | rfl | rfl | rfl | rfl | rfl | rfl | rfl | rfl | hc | rfl | hc) | hc
    · exact Or.inr (by decide)
    · exact Or.inr (by decide)
    · exact Or.inr (by decide)
    · exact Or.inr (by decide)
    · exact Or.inr (by decide)
    · exact Or.inr (by decide)
    · exact Or.inr (by decide)
    · exact Or.inr (by decide)
    · exact Or.inr (by decide)
    · exact Or.inr (by decide)
    · exact Or.inr (isPyLineBreak_eq_false_of_digit (hdigall c hc))
    · exact Or.inr (by decide)
    · exact Or.inr (hnmc c hc)
    · exact hrestsafe c hc
  have hLsafe : ∀ l ∈ splitNl (canonicalStmt ys nm ++ rest), ∀ c ∈ l,
      isPyLineBreak c = false := by
    intro l hl c hc
    obtain ⟨hmem, hne⟩ := splitNl_mem hl hc
    rcases hsubstsafe c hmem with h | h
    · exact absurd h hne
    · exact h
  have hLne : splitNl (canonicalStmt ys nm ++ rest) ≠ [] := splitNl_ne_nil _
  obtain ⟨t0, ht0⟩ := commentLines_head _ hLne
  have hflat : commentize (canonicalStmt ys nm ++ rest) = '#' :: ' ' :: t0 := by
    rw [commentize, ht0]
  have hscan : scan_past_coding_and_shebang_lines
      (commentize (canonicalStmt ys nm ++ rest)) = some 0 :=
    scan_hash_line hflat hcoding
  have hempty : scan_past_empty_lines (commentize (canonicalStmt ys nm ++ rest)) 0 = 0 :=
    scanEmpty_hash_line hflat
  have hblock : get_comment_block (commentize (canonicalStmt ys nm ++ rest)) 0 =
      some (canonicalStmt ys nm ++ rest, 2) := by
    rw [commentize, get_comment_block_commentLines _ hLne hLsafe, intercalate_splitNl]
  have hne2 : canonicalStmt ys nm ++ rest ≠ [] := by simp [canonicalStmt]
  obtain ⟨hsp, hyslice, hnslice⟩ :=
    search_canonicalStmt ys nm rest hys hysd hnm
      (fun c hc => ne_nl_cr_of_not_break (hnmc c hc)) hn0 hrest
  have hdroprest : (canonicalStmt ys nm ++ rest).drop (15 + nm.length) = rest := by
    apply List.drop_left'
    simp [canonicalStmt, hys]
    omega
  have hcne : commentize (canonicalStmt ys nm ++ rest) ≠ [] := by
    rw [hflat]
    simp
  rw [hT] at hfound
  refine ⟨?_, by rw [hdroprest, hT], hku⟩
  unfold SourceDescriptor.parse
  rw [if_neg hcne, hscan]
  simp only [hempty, hblock, hne2, hsp, hyslice, hnslice, hdroprest, if_neg,
    reduceCtorEq, Option.some_inj]
  simp only [hne2, if_false]
  rw [hfound]

/-- Witness for C3: the Apache-style template `{copyright}\nLicensed under X`
substituted with `Copyright 2019 Jane Doe`, commented, parses back to the
registered identifier. -/
theorem claim_C3_witness :
    SourceDescriptor.parse []
        [("apache2", ⟨"{copyright}\nLicensed under X".toList, [], []⟩)]
        (commentize (canonicalStmt "2019".toList "Jane Doe".toList ++
          "\nLicensed under X".toList)) =
      some { copyright_years := some ("2019".toList),
             copyright_name := some ("Jane Doe".toList),
             copyright_identifier := some (identify_copyright [] (some ("Jane Doe".toList))),
             license_identifier := some "apache2" } ∧
    placeholder ++ (canonicalStmt "2019".toList "Jane Doe".toList ++
        "\nLicensed under X".toList).drop (15 + ("Jane Doe".toList).length) =
      "{copyright}\nLicensed under X".toList ∧
    ("apache2" : String) ≠ UNKNOWN_IDENTIFIER :=
  claim_C3 [] [("apache2", ⟨"{copyright}\nLicensed under X".toList, [], []⟩)] "apache2"
    ⟨"{copyright}\nLicensed under X".toList, [], []⟩
    "2019".toList "Jane Doe".toList "\nLicensed under X".toList
    (by decide) (by decide) (by decide) (by decide) (by decide)
    (Or.inr ⟨"Licensed under X".toList, rfl⟩) (by decide) (by decide) (by decide)
    (by decide) (by decide)
